import Mathlib

/-!
Shallow embedding of the `cleaned` validation library
(src/cleaned/base.py, src/cleaned/errors.py, src/cleaned/fields.py)
and proofs about the claims of its specification.

Python values are modelled by the inductive `Val`; the process-wide
`Undefined` sentinel is modelled by the `RawV.undefined` constructor of the
raw-input type, `ValidationError` by `VErr`, and all other exceptions by
their class name (`PyExc.exc`).  User-supplied `convert`/`validate`
functions become fields of `FieldDef`; the record construction algorithm
`Cleaned.__init__` becomes `recordInit` (a fold over the declared fields
followed by a fold over the declared cleaned properties).  Where a claim
is about code that is *not* invoked (a producer default, a skipped
property), the model counts the invocations explicitly.
-/

namespace CleanedM

/-- Item of a ValidationError: `ValidationError.Item` in errors.py. -/
structure VItem where
  message : String
  code : Option String
deriving DecidableEq, Repr

/-- `ValidationError`: a list of items plus a name-keyed map of nested errors. -/
inductive VErr where
  | mk (items : List VItem) (nested : List (String × VErr))

/-- The flat item list of a `ValidationError`. -/
def VErr.items : VErr → List VItem
  | .mk i _ => i

/-- The nested error mapping of a `ValidationError`. -/
def VErr.nested : VErr → List (String × VErr)
  | .mk _ n => n

/-- `ValidationError(message, code)`: one item, nothing nested. -/
def VErr.single (msg : String) (code : Option String) : VErr :=
  .mk [⟨msg, code⟩] []

/-- The error-code taxonomy of errors.py (`ErrorCode`). -/
def ErrorCode.required : String := "required"

/-- Code for conversion failures. -/
def ErrorCode.conversion : String := "conversion"

/-- Code for blank-string failures. -/
def ErrorCode.blank : String := "blank"

/-- Code for regex-pattern failures. -/
def ErrorCode.pattern : String := "pattern"

/-- Code for strict upper-bound violations. -/
def ErrorCode.lt : String := "lt"

/-- Code for upper-bound violations. -/
def ErrorCode.lte : String := "lte"

/-- Code for strict lower-bound violations. -/
def ErrorCode.gt : String := "gt"

/-- Code for lower-bound violations. -/
def ErrorCode.gte : String := "gte"

/-- Code for exact-length violations. -/
def ErrorCode.length : String := "length"

/-- Code for minimum-length violations. -/
def ErrorCode.min_length : String := "min_length"

/-- Code for maximum-length violations. -/
def ErrorCode.max_length : String := "max_length"

/-- Code for allow-set violations. -/
def ErrorCode.one_of : String := "one_of"

/-- Python runtime values, as far as the library manipulates them:
`None`, booleans, integers, strings, lists, dicts with string keys, and
constructed `Cleaned` instances (`record`, carrying the class name and
the immutable `_data` mapping). -/
inductive Val where
  | null
  | bool (b : Bool)
  | int (n : Int)
  | str (s : String)
  | list (elems : List Val)
  | dict (entries : List (String × Val))
  | record (tyName : String) (data : List (String × Val))

/-- A raised Python exception: either a `ValidationError` carrying its
payload, or any other exception identified by its class name and message. -/
inductive PyExc where
  | validation (e : VErr)
  | exc (kind : String) (msg : String)

/-- The class name of a raised exception (what `isinstance` checks
against the expected-exceptions tuple dispatch on). -/
def PyExc.kindName : PyExc → String
  | .validation _ => "ValidationError"
  | .exc k _ => k

/-- Lookup in an association list (Python `dict.get`, first occurrence). -/
def alistGet {α : Type} : List (String × α) → String → Option α
  | [], _ => Option.none
  | (k', v) :: rest, k => if k' = k then some v else alistGet rest k

/-- Python `dict[k] = v`: replace in place if the key is present,
otherwise append (insertion order is preserved). -/
def alistSet {α : Type} : List (String × α) → String → α → List (String × α)
  | [], k, v => [(k, v)]
  | (k', v') :: rest, k, v =>
    if k' = k then (k', v) :: rest else (k', v') :: alistSet rest k v

/-- Python `dict.pop(k, None)`: drop the entry for `k` if present. -/
def alistPop {α : Type} : List (String × α) → String → List (String × α)
  | [], _ => []
  | (k', v') :: rest, k =>
    if k' = k then rest else (k', v') :: alistPop rest k

/-- The keys of an association list. -/
def alistKeys {α : Type} (l : List (String × α)) : List String :=
  l.map Prod.fst

mutual
/-- Python rendering of a value, used in diagnostic messages. -/
def vrepr : Val → String
  | .null => "None"
  | .bool b => if b then "True" else "False"
  | .int n => toString n
  | .str s => s
  | .list xs => "[" ++ vreprList xs ++ "]"
  | .dict es => "\x7b" ++ vreprEntries es ++ "\x7d"
  | .record t d => "<" ++ t ++ " " ++ vreprEntries d ++ ">"

/-- Rendering of a list of values. -/
def vreprList : List Val → String
  | [] => ""
  | [x] => vrepr x
  | x :: xs => vrepr x ++ ", " ++ vreprList xs

/-- Rendering of a mapping of values. -/
def vreprEntries : List (String × Val) → String
  | [] => ""
  | [(k, v)] => k ++ ": " ++ vrepr v
  | (k, v) :: xs => k ++ ": " ++ vrepr v ++ ", " ++ vreprEntries xs
end

/-- The `_default` slot of a `Field`: the `Undefined` sentinel, a static
default value, or a zero-argument producer (`callable(self._default)`). -/
inductive DefaultSpec where
  | undefined
  | value (v : Val)
  | producer (f : Unit → Val)

/-- A `Field` (base.py), reduced to what `clean` consumes: the class
name (used in the conversion error message), label and description
metadata, the default slot, the declared expected exception kinds for
`convert`, the user-supplied `convert` and `validate` functions, and
the `tags` attribute when the field is a `TagField` (`Option.none`
otherwise, so that `isinstance(field, TagField)` is decidable). -/
structure FieldDef where
  clsName : String := "Field"
  label : String := ""
  desc : String := ""
  dflt : DefaultSpec := .undefined
  expectedExceptions : List String := ["ValueError", "TypeError"]
  convert : Val → Except PyExc Val
  validate : Val → Option PyExc
  tags : Option (List String) := Option.none

/-- Raw input offered to `Field.clean`: either the `Undefined` sentinel
(`kwargs.get(key, _UNDEFINED)` missed) or an actual value. -/
inductive RawV where
  | undefined
  | val (v : Val)

/-- Result of one `Field.clean` call together with how many times the
user-supplied producer default, `convert` and `validate` were invoked
during that call. -/
structure CleanTrace where
  result : Except PyExc Val
  producerCalls : Nat
  convertCalls : Nat
  validateCalls : Nat

/-- The error raised by `Field.raise_required_error`. -/
def requiredError : VErr :=
  VErr.single "This field is required" (some ErrorCode.required)

/-- The error raised by `Field.raise_conversion_error` from `Field.clean`. -/
def conversionError (clsName : String) (v : Val) : VErr :=
  VErr.single ("Failed to convert " ++ vrepr v ++ " for " ++ clsName)
    (some ErrorCode.conversion)

/-- `Field.clean` (base.py lines 62-85).  On the sentinel: no default
raises the required error, a producer default is invoked (once) and its
result returned un-converted and un-validated, a static default is
returned un-converted and un-validated.  Otherwise `convert` runs; a
raised exception whose kind is among the declared expected kinds
becomes a conversion `ValidationError`, any other raised exception
propagates; then `validate` runs and its raised exception propagates. -/
def FieldDef.clean (f : FieldDef) (raw : RawV) : CleanTrace :=
  match raw with
  | .undefined =>
    match f.dflt with
    | .undefined => ⟨.error (.validation requiredError), 0, 0, 0⟩
    | .producer g => ⟨.ok (g ()), 1, 0, 0⟩
    | .value v => ⟨.ok v, 0, 0, 0⟩
  | .val v =>
    match f.convert v with
    | .ok c =>
      match f.validate c with
      | some e => ⟨.error e, 0, 1, 1⟩
      | Option.none => ⟨.ok c, 0, 1, 1⟩
    | .error e =>
      if f.expectedExceptions.contains (PyExc.kindName e) then
        ⟨.error (.validation (conversionError f.clsName v)), 0, 1, 0⟩
      else
        ⟨.error e, 0, 1, 0⟩

/-- The fluent `Field.default` modifier. -/
def FieldDef.setDefault (f : FieldDef) (d : DefaultSpec) : FieldDef :=
  { f with dflt := d }

/-- `Field.opt` (base.py lines 137-144): build an `OptionalField`
wrapping this field, carrying over label and description and — only
when one is set — the default.  `OptionalField.convert` maps `None` to
`None` and otherwise delegates to the wrapped field, and
`OptionalField.validate` is a no-op on `None` and otherwise delegates
(base.py lines 161-174). -/
def FieldDef.opt (f : FieldDef) : FieldDef :=
  { clsName := "OptionalField"
    label := f.label
    desc := f.desc
    dflt := f.dflt
    expectedExceptions := ["ValueError", "TypeError"]
    convert := fun v =>
      match v with
      | .null => .ok .null
      | _ => f.convert v
    validate := fun v =>
      match v with
      | .null => Option.none
      | _ => f.validate v
    tags := Option.none }

/-- Python `int(value)` as used by `IntField.convert`. -/
def pyToInt (v : Val) : Except PyExc Val :=
  match v with
  | .int n => .ok (.int n)
  | .bool b => .ok (.int (if b then 1 else 0))
  | .str s =>
    match s.trim.toInt? with
    | some n => .ok (.int n)
    | Option.none =>
      .error (.exc "ValueError" ("invalid literal for int with base 10: " ++ s))
  | v => .error (.exc "TypeError" ("int argument must not be " ++ vrepr v))

/-- One ordering check of `_validate_comparable` (fields.py): the bound,
if configured and violated, that the check fails on. -/
def cmpFail (bound : Option Int) (violated : Int → Bool) : Option Int :=
  match bound with
  | some b => if violated b then some b else Option.none
  | Option.none => Option.none

/-- The `_validate_comparable` helper of fields.py for integer bounds:
checks `lt`, `lte`, `gt`, `gte` in that order and raises on the first
violated bound. -/
def validateComparable (ltB lteB gtB gteB : Option Int) (n : Int) : Option PyExc :=
  match cmpFail ltB (fun b => n ≥ b) with
  | some b => some (.validation (VErr.single
      ("The value must be less than " ++ toString b ++ ".") (some ErrorCode.lt)))
  | Option.none =>
  match cmpFail lteB (fun b => n > b) with
  | some b => some (.validation (VErr.single
      ("The value must be less than or equal to " ++ toString b ++ ".")
      (some ErrorCode.lte)))
  | Option.none =>
  match cmpFail gtB (fun b => n ≤ b) with
  | some b => some (.validation (VErr.single
      ("The value must be greater than " ++ toString b ++ ".") (some ErrorCode.gt)))
  | Option.none =>
  match cmpFail gteB (fun b => n < b) with
  | some b => some (.validation (VErr.single
      ("The value must be greater than or equal to " ++ toString b ++ ".")
      (some ErrorCode.gte)))
  | Option.none => Option.none

/-- `IntField` (fields.py) restricted to its ordering bounds: `convert`
is Python `int`, `validate` runs the comparable checks. -/
def IntField.make (ltB lteB gtB gteB : Option Int) : FieldDef :=
  { clsName := "IntField"
    convert := pyToInt
    validate := fun v =>
      match v with
      | .int n => validateComparable ltB lteB gtB gteB n
      | _ => Option.none }

/-- An unconstrained `IntField()`. -/
def intField : FieldDef :=
  IntField.make Option.none Option.none Option.none Option.none

mutual
/-- A reference held in a `CleanedProperty.depends_on` list: either a
`Field` (identified by its `_propname`) or another `CleanedProperty`
(its `_propname` together with its own `depends_on` list). -/
inductive DepRef where
  | fld (propname : String)
  | prop (propname : String) (dependsOn : DepList)

/-- A `depends_on` list of dependency references (a plain list, spelled
as its own inductive so that recursion over the tree is structural). -/
inductive DepList where
  | nil
  | cons (d : DepRef) (rest : DepList)
end

/-- Build a `DepList` from a literal list. -/
def DepList.ofList : List DepRef → DepList
  | [] => .nil
  | d :: rest => .cons d (DepList.ofList rest)

/-- `CleanedProperty._iterate_depends_on`: for each dependency, first
recurse into a property dependency, then yield its `_propname`. -/
def iterateDependsOn : DepList → List String
  | .nil => []
  | .cons (.fld n) rest => n :: iterateDependsOn rest
  | .cons (.prop n ds) rest => iterateDependsOn ds ++ n :: iterateDependsOn rest

/-- `CleanedProperty.depends_on_propnames`: the transitive dependency
names as a set.  Python's `set` is unordered and is consumed only
through membership and cardinality, so it is embedded as the
deduplicated name list. -/
def dependsOnPropnames (dependsOn : DepList) : List String :=
  (iterateDependsOn dependsOn).dedup

/-- Outcome of invoking a cleaned property or constraint function on the
partially-built instance: a returned value, a raised `ValidationError`,
an escaped `DirtyFieldAccess` (attribute access on a name missing from
the restricted `_data` view), or any other raised exception. -/
inductive PropOut where
  | ok (v : Val)
  | vErr (e : VErr)
  | dirty (key : String)
  | exc (kind : String) (msg : String)

/-- A cleaned-property body as the sequence of attribute accesses it
performs: return, raise a `ValidationError`, raise some other
exception, or read `self.<name>` and continue with the value read. -/
inductive Body where
  | ret (v : Val)
  | raiseErr (e : VErr)
  | raiseExc (kind : String) (msg : String)
  | getattr (name : String) (k : Val → Body)

/-- Run a property body against the restricted `self._data` view.
Attribute access is `Dependable.__get__` (base.py lines 29-35): a name
present in `_data` yields its value, a missing one raises
`DirtyFieldAccess` with that name. -/
def runBody : Body → List (String × Val) → PropOut
  | .ret v, _ => .ok v
  | .raiseErr e, _ => .vErr e
  | .raiseExc k m, _ => .exc k m
  | .getattr n k, view =>
    match alistGet view n with
    | some v => runBody (k v) view
    | Option.none => .dirty n

/-- A declared `CleanedProperty` or `Constraint` of a record type: its
`_propname`, its error key (`(lambda: field._propname)` when attached
to a field, otherwise absent), its `depends_on` list, whether it is a
`Constraint`, and its body. -/
structure PropDef where
  name : String
  key : Option String := Option.none
  dependsOn : DepList := .nil
  isConstraint : Bool := false
  clean : List (String × Val) → PropOut

/-- The Python class name of a property, used in the undeclared-access
assertion message. -/
def PropDef.clsname (p : PropDef) : String :=
  if p.isConstraint then "Constraint" else "CleanedProperty"

/-- A `Cleaned` record type: its class name and the ordered
field and cleaned-property registries collected by `CleanedBuilder`. -/
structure RecordDef where
  name : String
  fields : List (String × FieldDef)
  props : List PropDef := []

/-- `kwargs.get(key, _UNDEFINED)`. -/
def rawArg (kwargs : List (String × Val)) (n : String) : RawV :=
  match alistGet kwargs n with
  | some v => .val v
  | Option.none => .undefined

/-- Working state of the field phase of `Cleaned.__init__`: the data
produced so far and the per-name recorded `ValidationError`s. -/
structure FieldState where
  data : List (String × Val)
  errors : List (String × VErr)

/-- One iteration of the field loop of `Cleaned.__init__` (base.py
lines 268-272): clean the raw argument; store the value on success,
record the error under the field name on a `ValidationError`, and let
any other exception propagate (modelled as `Except.error`). -/
def fieldStep (kwargs : List (String × Val)) (st : FieldState)
    (nf : String × FieldDef) : Except (String × String) FieldState :=
  match (nf.2.clean (rawArg kwargs nf.1)).result with
  | .ok v => .ok ⟨alistSet st.data nf.1 v, st.errors⟩
  | .error (.validation e) => .ok ⟨st.data, alistSet st.errors nf.1 e⟩
  | .error (.exc k m) => .error (k, m)

/-- The field loop of `Cleaned.__init__` over the declared fields in
declaration order. -/
def fieldPhase (kwargs : List (String × Val)) :
    List (String × FieldDef) → FieldState → Except (String × String) FieldState
  | [], st => .ok st
  | nf :: rest, st =>
    match fieldStep kwargs st nf with
    | .ok st' => fieldPhase kwargs rest st'
    | .error f => .error f

/-- Working state of the property phase: the working data, the
name-keyed errors, the accumulated unnamed errors, and the trace of
property names whose function was actually invoked. -/
structure PropState where
  data : List (String × Val)
  errors : List (String × VErr)
  unnamed : List VErr
  invoked : List String

/-- The restricted `self._data` view built before evaluating a
property: the subset of the working data present among the dependency
names (base.py lines 276-280). -/
def mkView (data : List (String × Val)) (names : List String) :
    List (String × Val) :=
  names.filterMap (fun n => (alistGet data n).map (fun v => (n, v)))

/-- The `AssertionError` message raised when a property body performed
an undeclared attribute access (base.py lines 288-294). -/
def dirtyMsg (clsname key acc : String) : String :=
  clsname ++ " " ++ key ++ " accessed to " ++ acc ++
    " during processing but the " ++ clsname ++
    " is not set to depends on " ++ acc ++
    ". If the access is not mistake, you should make the " ++ clsname ++
    " depends on " ++ acc ++ "."

/-- One iteration of the property loop of `Cleaned.__init__` (base.py
lines 274-301): build the restricted view; skip the property when some
transitive dependency is missing from the working data; otherwise
invoke its function — a returned value is stored under the property
name, a `DirtyFieldAccess` becomes a fatal `AssertionError`, a raised
`ValidationError` is recorded under the property key when it has one
and accumulated unnested otherwise, and any other exception
propagates. -/
def propStep (st : PropState) (p : PropDef) : Except (String × String) PropState :=
  let names := dependsOnPropnames p.dependsOn
  let view := mkView st.data names
  if view.length = names.length then
    match p.clean view with
    | .ok v =>
      .ok { st with data := alistSet st.data p.name v,
                    invoked := st.invoked ++ [p.name] }
    | .vErr e =>
      match p.key with
      | some k =>
        .ok { st with errors := alistSet st.errors k e,
                      invoked := st.invoked ++ [p.name] }
      | Option.none =>
        .ok { st with unnamed := st.unnamed ++ [e],
                      invoked := st.invoked ++ [p.name] }
    | .dirty a => .error ("AssertionError", dirtyMsg p.clsname p.name a)
    | .exc k m => .error (k, m)
  else
    .ok st

/-- The property loop of `Cleaned.__init__` over the declared
properties in declaration order. -/
def propPhase : List PropDef → PropState → Except (String × String) PropState
  | [], st => .ok st
  | p :: rest, st =>
    match propStep st p with
    | .ok st' => propPhase rest st'
    | .error f => .error f

/-- The constraint-discarding loop of `Cleaned.__init__` (base.py lines
303-305): pop the entry of every `Constraint` name from the data. -/
def popConstraints : List PropDef → List (String × Val) → List (String × Val)
  | [], data => data
  | p :: rest, data =>
    popConstraints rest (if p.isConstraint then alistPop data p.name else data)

/-- The combined `ValidationError(items, errors)` raised at the end of
`Cleaned.__init__` (base.py lines 307-313): the items of the unnamed
errors concatenated as the top-level items, and the name-keyed errors,
updated with the nested maps of the unnamed errors, as the nested map. -/
def combineErrors (unnamed : List VErr) (errors : List (String × VErr)) : VErr :=
  VErr.mk
    (unnamed.foldl (fun acc e => acc ++ e.items) [])
    (unnamed.foldl
      (fun acc e => e.nested.foldl (fun a kv => alistSet a kv.1 kv.2) acc)
      errors)

/-- Both phases of `Cleaned.__init__`, stopping at the first
non-`ValidationError` exception. -/
def recordInitCore (rec : RecordDef) (kwargs : List (String × Val)) :
    Except (String × String) PropState :=
  match fieldPhase kwargs rec.fields ⟨[], []⟩ with
  | .error f => .error f
  | .ok fst => propPhase rec.props ⟨fst.data, fst.errors, [], []⟩

/-- Outcome of one record construction call: a constructed instance, a
raised combined `ValidationError`, or a propagated fatal exception. -/
inductive InitResult where
  | ok (inst : Val)
  | vErr (e : VErr)
  | fatal (kind : String) (msg : String)

/-- `Cleaned.__init__` (base.py lines 262-315): run both phases,
discard constraint values, and either raise the combined
`ValidationError` (when any error was recorded) or produce the
instance with the working data as its `_data`. -/
def recordInit (rec : RecordDef) (kwargs : List (String × Val)) : InitResult :=
  match recordInitCore rec kwargs with
  | .error (k, m) => .fatal k m
  | .ok st =>
    let data := popConstraints rec.props st.data
    if st.unnamed.isEmpty && st.errors.isEmpty then
      .ok (.record rec.name data)
    else
      .vErr (combineErrors st.unnamed st.errors)

/-- `TagField` (base.py lines 348-363): `convert` returns the value
when it equals one of the declared tags and raises `TypeError`
otherwise (string equality with a non-string value is false);
`validate` is a no-op.  The `tags` attribute is set, which is what
`isinstance(field, TagField)` dispatches on in `TaggedUnion`. -/
def TagField.make (ts : List String) : FieldDef :=
  { clsName := "TagField"
    convert := fun v =>
      match v with
      | .str s => if ts.contains s then .ok (.str s) else .error (.exc "TypeError" "")
      | _ => .error (.exc "TypeError" "")
    validate := fun _ => Option.none
    tags := some ts }

/-- A `TaggedUnion` after successful construction: the discriminator
field name, the fallback tag (empty string when none configured), the
deduplicated member list and the tag-to-member mapping. -/
structure TaggedUnionDef where
  tagFieldName : String
  fallback : String
  members : List RecordDef
  mapping : List (String × RecordDef)

/-- The member-deduplication loop of `TaggedUnion.__init__` (base.py
lines 757-761): keep each member type once, by identity (class
identity is modelled by the record name), preserving order. -/
def dedupMembers (cleaneds : List RecordDef) : List RecordDef :=
  cleaneds.foldl
    (fun acc cl => if acc.any (fun m => m.name == cl.name) then acc else acc ++ [cl])
    []

/-- Insert all tags of one member into the union mapping, failing on a
tag that is already mapped (the duplicate-tag assertion of base.py
lines 770-774). -/
def addMemberTags (cl : RecordDef) : List String → List (String × RecordDef) →
    Except String (List (String × RecordDef))
  | [], mp => .ok mp
  | t :: rest, mp =>
    if (alistGet mp t).isSome then
      .error "A tag is duplicated. All members of a tagged union must have unique tag."
    else
      addMemberTags cl rest (alistSet mp t cl)

/-- The mapping-building loop of `TaggedUnion.__init__` (base.py lines
763-774): every member must declare a `TagField` under the
discriminator name, and every tag maps to its member. -/
def buildMapping (tagFieldName : String) : List RecordDef →
    List (String × RecordDef) → Except String (List (String × RecordDef))
  | [], mp => .ok mp
  | cl :: rest, mp =>
    match alistGet cl.fields tagFieldName with
    | some f =>
      match f.tags with
      | some ts =>
        match addMemberTags cl ts mp with
        | .ok mp' => buildMapping tagFieldName rest mp'
        | .error e => .error e
      | Option.none =>
        .error "All members must have discirinable tags that fields are named with the tag field name."
    | Option.none =>
      .error "All members must have discirinable tags that fields are named with the tag field name."

/-- `TaggedUnion.__init__` (base.py lines 750-777): deduplicate the
member types, build the tag mapping with its assertions, and assert
that a non-empty fallback is itself a mapped tag. -/
def tunionMake (tagFieldName : String) (cleaneds : List RecordDef)
    (fallback : String) : Except String TaggedUnionDef :=
  let members := dedupMembers cleaneds
  match buildMapping tagFieldName members [] with
  | .error e => .error e
  | .ok mp =>
    if fallback == "" || (alistGet mp fallback).isSome then
      .ok ⟨tagFieldName, fallback, members, mp⟩
    else
      .error "fallback must be a tag which one of the members has"

/-- `TaggedUnion.__call__` (base.py lines 779-784): read the
discriminator value from the keyword arguments; when it is absent or
`None`, substitute the fallback tag into the arguments; look the
(possibly substituted) tag up in the mapping; delegate to the selected
member constructor, or raise `TypeError` when no member matches. -/
def tunionCall (u : TaggedUnionDef) (kwargs : List (String × Val)) : InitResult :=
  let resolved : Val × List (String × Val) :=
    match alistGet kwargs u.tagFieldName with
    | Option.none => (.str u.fallback, alistSet kwargs u.tagFieldName (.str u.fallback))
    | some .null => (.str u.fallback, alistSet kwargs u.tagFieldName (.str u.fallback))
    | some v => (v, kwargs)
  match (match resolved.1 with
         | .str s => alistGet u.mapping s
         | _ => Option.none) with
  | some cl => recordInit cl resolved.2
  | Option.none => .fatal "TypeError" "The type is indeterminable from given values."

/-- `NestedField` (fields.py lines 559-580), parametric in the JSON
parser used for string input (`json.loads`; no claim exercises that
branch): an already-constructed instance re-offers its stored `_data`
as the keyword arguments of the target record type, a mapping is
offered as-is, and anything else raises `TypeError` (from
`dict(value)`).  A `ValidationError` raised by the nested construction
propagates out of `convert`. -/
def NestedField.make (jsonLoads : String → Except PyExc Val) (rec : RecordDef) :
    FieldDef :=
  { clsName := "NestedField"
    convert := fun v =>
      let unpack : Val → Except PyExc Val := fun w =>
        match w with
        | .record _ d =>
          (match recordInit rec d with
           | .ok inst => .ok inst
           | .vErr e => .error (.validation e)
           | .fatal k m => .error (.exc k m))
        | .dict d =>
          (match recordInit rec d with
           | .ok inst => .ok inst
           | .vErr e => .error (.validation e)
           | .fatal k m => .error (.exc k m))
        | other => .error (.exc "TypeError" ("cannot convert to dict: " ++ vrepr other))
      match v with
      | .str s =>
        (match jsonLoads s with
         | .ok w => unpack w
         | .error e => .error e)
      | w => unpack w
    validate := fun _ => Option.none }

/-- Keys of the second mapping all present in the first (half of the
Python dict equality check). -/
def keysSub (e d : List (String × Val)) : Bool :=
  e.all (fun kv => (alistGet d kv.1).isSome)

mutual
/-- Python `==` on the modelled values: `None`, booleans and numbers
compare numerically (`True == 1`), strings as strings, lists pointwise,
dicts as unordered key-value mappings, and `Cleaned` instances by their
stored `_data` mappings alone (`Cleaned.__eq__`, base.py lines
326-329), ignoring the concrete record type. -/
def pyEq : Val → Val → Bool
  | .null, .null => true
  | .bool a, .bool b => a == b
  | .bool a, .int n => (if a then (1 : Int) else 0) == n
  | .int n, .bool a => n == (if a then (1 : Int) else 0)
  | .int a, .int b => a == b
  | .str a, .str b => a == b
  | .list xs, .list ys => pyEqList xs ys
  | .dict d, .dict e => pyDictSub d e && keysSub e d
  | .record _ d, .record _ e => pyDictSub d e && keysSub e d
  | _, _ => false

/-- Pointwise Python `==` on lists. -/
def pyEqList : List Val → List Val → Bool
  | [], [] => true
  | x :: xs, y :: ys => pyEq x y && pyEqList xs ys
  | _, _ => false

/-- Every entry of the first mapping has a Python-equal value under the
same key in the second. -/
def pyDictSub : List (String × Val) → List (String × Val) → Bool
  | [], _ => true
  | (k, v) :: rest, e =>
    (match alistGet e k with
     | some w => pyEq v w
     | Option.none => false) && pyDictSub rest e
end

/-- Python `==` on dicts (and on the `_data` of two instances). -/
def pyDictEq (d e : List (String × Val)) : Bool :=
  pyDictSub d e && keysSub e d

/-- `Cleaned.__eq__` (base.py lines 326-329): `False` for any
non-instance, and `_data` dict equality for an instance of any record
type. -/
def cleanedEq (selfData : List (String × Val)) (other : Val) : Bool :=
  match other with
  | .record _ d => pyDictEq selfData d
  | _ => false

/-- Whether a value is a constructed `Cleaned` instance
(`isinstance(other, Cleaned)`). -/
def Val.isRecord : Val → Bool
  | .record _ _ => true
  | _ => false

/-- Extensional Python equality of two mappings: the same keys are
present, and present values are Python-equal.  This is the
specification-side notion that `Cleaned.__eq__` is checked against. -/
def dictEquivPy (d e : List (String × Val)) : Prop :=
  (∀ k, (alistGet d k).isSome ↔ (alistGet e k).isSome) ∧
  (∀ k v w, alistGet d k = some v → alistGet e k = some w → pyEq v w = true)

/-! ### Association-list lemmas -/

theorem alistGet_set_self {α : Type} (l : List (String × α)) (k : String) (v : α) :
    alistGet (alistSet l k v) k = some v := by
  induction l with
  | nil => simp [alistSet, alistGet]
  | cons kv rest ih =>
    by_cases h : kv.1 = k
    · simp [alistSet, alistGet, h]
    · simp [alistSet, alistGet, h, ih]

theorem alistGet_set_ne {α : Type} (l : List (String × α)) (k k' : String) (v : α)
    (h : k' ≠ k) : alistGet (alistSet l k v) k' = alistGet l k' := by
  induction l with
  | nil =>
    simp only [alistSet, alistGet]
    rw [if_neg (fun hh : k = k' => h hh.symm)]
  | cons kv rest ih =>
    by_cases hk : kv.1 = k
    · subst hk
      have hne : ¬ kv.1 = k' := fun hh => h hh.symm
      simp only [alistSet, if_pos rfl, alistGet, if_neg hne]
    · simp only [alistSet, if_neg hk, alistGet]
      by_cases hk' : kv.1 = k'
      · rw [if_pos hk', if_pos hk']
      · rw [if_neg hk', if_neg hk', ih]

theorem alistSet_ne_nil {α : Type} (l : List (String × α)) (k : String) (v : α) :
    alistSet l k v ≠ [] := by
  cases l with
  | nil => simp [alistSet]
  | cons kv rest =>
    by_cases h : kv.1 = k <;> simp [alistSet, h]

theorem alistGet_pop_ne {α : Type} (l : List (String × α)) (k m : String)
    (h : m ≠ k) : alistGet (alistPop l k) m = alistGet l m := by
  induction l with
  | nil => simp [alistPop]
  | cons kv rest ih =>
    by_cases hk : kv.1 = k
    · subst hk
      have hne : ¬ kv.1 = m := fun hh => h hh.symm
      simp only [alistPop, alistGet, eq_self_iff_true, if_true, if_neg hne]
    · simp only [alistPop, if_neg hk, alistGet]
      by_cases hm : kv.1 = m
      · rw [if_pos hm, if_pos hm]
      · rw [if_neg hm, if_neg hm, ih]

theorem alistGet_mem {α : Type} {l : List (String × α)} {k : String} {v : α} :
    alistGet l k = some v → (k, v) ∈ l := by
  induction l with
  | nil => intro h; simp [alistGet] at h
  | cons kv rest ih =>
    intro h
    obtain ⟨k0, v0⟩ := kv
    by_cases hk : k0 = k
    · subst hk
      simp only [alistGet, if_pos rfl] at h
      cases h
      exact List.mem_cons_self _ _
    · simp only [alistGet, if_neg hk] at h
      exact List.mem_cons_of_mem _ (ih h)

theorem mem_alistGet_isSome {α : Type} {l : List (String × α)} {k : String} {v : α}
    (h : (k, v) ∈ l) : (alistGet l k).isSome := by
  induction l with
  | nil => simp at h
  | cons kv rest ih =>
    rcases List.mem_cons.1 h with h | h
    · subst h
      simp [alistGet]
    · by_cases hk : kv.1 = k
      · simp [alistGet, hk]
      · simp [alistGet, hk, ih h]

theorem alistGet_of_mem_nodup {α : Type} {l : List (String × α)} {k : String} {v : α}
    (hn : (alistKeys l).Nodup) : (k, v) ∈ l → alistGet l k = some v := by
  induction l with
  | nil => intro h; simp at h
  | cons kv rest ih =>
    intro h
    obtain ⟨k0, v0⟩ := kv
    simp only [alistKeys, List.map_cons, List.nodup_cons] at hn
    rcases List.mem_cons.1 h with h | h
    · injection h with h1 h2
      subst h1
      subst h2
      simp [alistGet]
    · have hk : ¬ k0 = k := by
        intro he
        subst he
        exact hn.1 (List.mem_map.2 ⟨(k0, v), h, rfl⟩)
      simp only [alistGet, if_neg hk]
      exact ih hn.2 h

theorem alistGet_set_isSome {α : Type} (l : List (String × α)) (k n : String) (v : α)
    (h : (alistGet l n).isSome) : (alistGet (alistSet l k v) n).isSome := by
  by_cases hk : n = k
  · subst hk
    simp [alistGet_set_self]
  · rw [alistGet_set_ne _ _ _ _ hk]
    exact h

/-! ### Phase composition and preservation lemmas -/

theorem fieldPhase_append_ok (kwargs : List (String × Val))
    (pre l2 : List (String × FieldDef)) (st st' : FieldState)
    (h : fieldPhase kwargs pre st = .ok st') :
    fieldPhase kwargs (pre ++ l2) st = fieldPhase kwargs l2 st' := by
  induction pre generalizing st with
  | nil =>
    simp only [fieldPhase] at h
    cases h
    simp
  | cons nf rest ih =>
    simp only [fieldPhase] at h ⊢
    cases hs : fieldStep kwargs st nf with
    | ok st1 =>
      rw [hs] at h
      simp only [List.cons_append]
      exact ih st1 h
    | error f => rw [hs] at h; cases h

theorem fieldPhase_append_error (kwargs : List (String × Val))
    (pre l2 : List (String × FieldDef)) (st : FieldState) (f : String × String)
    (h : fieldPhase kwargs pre st = .error f) :
    fieldPhase kwargs (pre ++ l2) st = .error f := by
  induction pre generalizing st with
  | nil => simp [fieldPhase] at h
  | cons nf rest ih =>
    simp only [fieldPhase] at h ⊢
    cases hs : fieldStep kwargs st nf with
    | ok st1 =>
      rw [hs] at h
      exact ih st1 h
    | error f' =>
      rw [hs] at h
      cases h
      rfl

theorem propPhase_append_ok (pre l2 : List PropDef) (st st' : PropState)
    (h : propPhase pre st = .ok st') :
    propPhase (pre ++ l2) st = propPhase l2 st' := by
  induction pre generalizing st with
  | nil =>
    simp only [propPhase] at h
    cases h
    simp
  | cons p rest ih =>
    simp only [propPhase] at h ⊢
    cases hs : propStep st p with
    | ok st1 =>
      rw [hs] at h
      simp only [List.cons_append]
      exact ih st1 h
    | error f => rw [hs] at h; cases h

theorem fieldPhase_errors_mono (kwargs : List (String × Val))
    (l : List (String × FieldDef)) (st st' : FieldState)
    (h : fieldPhase kwargs l st = .ok st') (hne : st.errors ≠ []) :
    st'.errors ≠ [] := by
  induction l generalizing st with
  | nil =>
    simp only [fieldPhase] at h
    cases h
    exact hne
  | cons nf rest ih =>
    simp only [fieldPhase] at h
    cases hs : fieldStep kwargs st nf with
    | ok st1 =>
      rw [hs] at h
      refine ih st1 h ?_
      simp only [fieldStep] at hs
      cases hr : (nf.2.clean (rawArg kwargs nf.1)).result with
      | ok v =>
        rw [hr] at hs
        cases hs
        exact hne
      | error e =>
        cases e with
        | validation e' =>
          rw [hr] at hs
          cases hs
          exact alistSet_ne_nil _ _ _
        | exc k m => rw [hr] at hs; cases hs
    | error f => rw [hs] at h; cases h

theorem propStep_errors_mono (st st' : PropState) (p : PropDef)
    (h : propStep st p = .ok st') (hne : st.errors ≠ []) : st'.errors ≠ [] := by
  simp only [propStep] at h
  by_cases hc : (mkView st.data (dependsOnPropnames p.dependsOn)).length =
      (dependsOnPropnames p.dependsOn).length
  · rw [if_pos hc] at h
    cases hp : p.clean (mkView st.data (dependsOnPropnames p.dependsOn)) with
    | ok v => rw [hp] at h; cases h; exact hne
    | vErr e =>
      rw [hp] at h
      cases hk : p.key with
      | some k => rw [hk] at h; cases h; exact alistSet_ne_nil _ _ _
      | none => rw [hk] at h; cases h; exact hne
    | dirty a => rw [hp] at h; cases h
    | exc k m => rw [hp] at h; cases h
  · rw [if_neg hc] at h
    cases h
    exact hne

theorem propPhase_errors_mono (l : List PropDef) (st st' : PropState)
    (h : propPhase l st = .ok st') (hne : st.errors ≠ []) : st'.errors ≠ [] := by
  induction l generalizing st with
  | nil =>
    simp only [propPhase] at h
    cases h
    exact hne
  | cons p rest ih =>
    simp only [propPhase] at h
    cases hs : propStep st p with
    | ok st1 =>
      rw [hs] at h
      exact ih st1 h (propStep_errors_mono st st1 p hs hne)
    | error f => rw [hs] at h; cases h

theorem fieldPhase_data_preserve (kwargs : List (String × Val))
    (l : List (String × FieldDef)) (st st' : FieldState)
    (h : fieldPhase kwargs l st = .ok st') (m : String)
    (hm : ∀ nf ∈ l, nf.1 ≠ m) :
    alistGet st'.data m = alistGet st.data m := by
  induction l generalizing st with
  | nil =>
    simp only [fieldPhase] at h
    cases h
    rfl
  | cons nf rest ih =>
    simp only [fieldPhase] at h
    cases hs : fieldStep kwargs st nf with
    | ok st1 =>
      rw [hs] at h
      have h1 : alistGet st1.data m = alistGet st.data m := by
        simp only [fieldStep] at hs
        cases hr : (nf.2.clean (rawArg kwargs nf.1)).result with
        | ok v =>
          rw [hr] at hs
          cases hs
          exact alistGet_set_ne _ _ _ _ (fun he => hm nf (by simp) he.symm)
        | error e =>
          cases e with
          | validation e' => rw [hr] at hs; cases hs; rfl
          | exc k mm => rw [hr] at hs; cases hs
      rw [ih st1 h (fun x hx => hm x (List.mem_cons_of_mem _ hx)), h1]
    | error f => rw [hs] at h; cases h

theorem propStep_data_preserve (st st' : PropState) (p : PropDef)
    (h : propStep st p = .ok st') (m : String) (hm : p.name ≠ m) :
    alistGet st'.data m = alistGet st.data m := by
  simp only [propStep] at h
  by_cases hc : (mkView st.data (dependsOnPropnames p.dependsOn)).length =
      (dependsOnPropnames p.dependsOn).length
  · rw [if_pos hc] at h
    cases hp : p.clean (mkView st.data (dependsOnPropnames p.dependsOn)) with
    | ok v =>
      rw [hp] at h
      cases h
      exact alistGet_set_ne _ _ _ _ (fun he => (hm he.symm).elim)
    | vErr e =>
      rw [hp] at h
      cases hk : p.key with
      | some k => rw [hk] at h; cases h; rfl
      | none => rw [hk] at h; cases h; rfl
    | dirty a => rw [hp] at h; cases h
    | exc k mm => rw [hp] at h; cases h
  · rw [if_neg hc] at h
    cases h
    rfl

theorem propPhase_data_preserve (l : List PropDef) (st st' : PropState)
    (h : propPhase l st = .ok st') (m : String) (hm : ∀ p ∈ l, p.name ≠ m) :
    alistGet st'.data m = alistGet st.data m := by
  induction l generalizing st with
  | nil =>
    simp only [propPhase] at h
    cases h
    rfl
  | cons p rest ih =>
    simp only [propPhase] at h
    cases hs : propStep st p with
    | ok st1 =>
      rw [hs] at h
      rw [ih st1 h (fun x hx => hm x (List.mem_cons_of_mem _ hx)),
        propStep_data_preserve st st1 p hs m (hm p (by simp))]
    | error f => rw [hs] at h; cases h

theorem popConstraints_preserve (l : List PropDef) (data : List (String × Val))
    (m : String) (hm : ∀ p ∈ l, p.name ≠ m) :
    alistGet (popConstraints l data) m = alistGet data m := by
  induction l generalizing data with
  | nil => rfl
  | cons p rest ih =>
    simp only [popConstraints]
    rw [ih _ (fun x hx => hm x (List.mem_cons_of_mem _ hx))]
    by_cases hc : p.isConstraint
    · rw [if_pos hc]
      exact alistGet_pop_ne _ _ _ (fun he => (hm p (by simp) he.symm).elim)
    · rw [if_neg hc]

/-! ### View lemmas -/

theorem mkView_length_le (data : List (String × Val)) (names : List String) :
    (mkView data names).length ≤ names.length := by
  induction names with
  | nil => simp [mkView]
  | cons n rest ih =>
    simp only [mkView, List.filterMap_cons]
    cases h : alistGet data n with
    | none =>
      simp only [Option.map_none']
      exact Nat.le_trans ih (Nat.le_succ _)
    | some v =>
      simp only [Option.map_some', List.length_cons]
      exact Nat.succ_le_succ ih

theorem mkView_length_lt (data : List (String × Val)) (names : List String)
    (n : String) (hn : n ∈ names) (hmiss : alistGet data n = Option.none) :
    (mkView data names).length < names.length := by
  induction names with
  | nil => simp at hn
  | cons n0 rest ih =>
    simp only [mkView, List.filterMap_cons]
    rcases List.mem_cons.1 hn with he | hmem
    · subst he
      rw [hmiss]
      simp only [Option.map_none', List.length_cons]
      exact Nat.lt_succ_of_le (mkView_length_le data rest)
    · cases h : alistGet data n0 with
      | none =>
        simp only [Option.map_none', List.length_cons]
        exact Nat.lt_succ_of_le (Nat.le_of_lt (ih hmem))
      | some v =>
        simp only [Option.map_some', List.length_cons]
        exact Nat.succ_lt_succ (ih hmem)

theorem mkView_all_isSome (data : List (String × Val)) (names : List String)
    (h : (mkView data names).length = names.length) :
    ∀ n ∈ names, (alistGet data n).isSome := by
  intro n hn
  cases hg : alistGet data n with
  | none => exact absurd h (Nat.ne_of_lt (mkView_length_lt data names n hn hg))
  | some v => rfl

theorem alistGet_mkView_not_mem (data : List (String × Val)) (names : List String)
    (n : String) (hmem : n ∉ names) :
    alistGet (mkView data names) n = Option.none := by
  induction names with
  | nil => rfl
  | cons n0 rest ih =>
    have hne : ¬ n0 = n := fun he => hmem (he ▸ List.mem_cons_self _ _)
    have hrest : n ∉ rest := fun hm => hmem (List.mem_cons_of_mem _ hm)
    simp only [mkView, List.filterMap_cons]
    cases h : alistGet data n0 with
    | none =>
      simp only [Option.map_none']
      exact ih hrest
    | some v =>
      simp only [Option.map_some', alistGet, if_neg hne]
      exact ih hrest

theorem mkView_get (data : List (String × Val)) (names : List String)
    (hn : names.Nodup) (n : String) (hmem : n ∈ names) :
    alistGet (mkView data names) n = alistGet data n := by
  induction names with
  | nil => simp at hmem
  | cons n0 rest ih =>
    simp only [List.nodup_cons] at hn
    simp only [mkView, List.filterMap_cons]
    rcases List.mem_cons.1 hmem with he | hmem'
    · subst he
      cases h : alistGet data n with
      | none =>
        simp only [Option.map_none', h]
        exact alistGet_mkView_not_mem data rest n hn.1
      | some v =>
        simp only [Option.map_some', alistGet, eq_self_iff_true, if_true, h]
    · have hne : ¬ n0 = n := fun he => hn.1 (he ▸ hmem')
      cases h : alistGet data n0 with
      | none =>
        simp only [Option.map_none']
        exact ih hn.2 hmem'
      | some v =>
        simp only [Option.map_some', alistGet, if_neg hne]
        exact ih hn.2 hmem'

theorem runBody_dirty (b : Body) (view : List (String × Val)) (a : String)
    (h : runBody b view = .dirty a) : alistGet view a = Option.none := by
  induction b with
  | ret v => simp [runBody] at h
  | raiseErr e => simp [runBody] at h
  | raiseExc k m => simp [runBody] at h
  | getattr n k ih =>
    simp only [runBody] at h
    cases hg : alistGet view n with
    | none =>
      rw [hg] at h
      cases h
      exact hg
    | some v =>
      rw [hg] at h
      exact ih v h

/-! ### Claim C3: `Field.clean` on absent (sentinel) input -/

/-- C3.  `Field.clean` on the `Undefined` sentinel: with no configured
default it fails with the required error (code `required`); with a
zero-argument producer default it invokes the producer exactly once and
returns its result with `convert` and `validate` never invoked; with a
static default it returns exactly that value with `convert` and
`validate` never invoked. -/
theorem clean_absent_input (f : FieldDef) :
    (f.dflt = .undefined →
      f.clean .undefined =
        ⟨.error (.validation (VErr.single "This field is required"
          (some ErrorCode.required))), 0, 0, 0⟩) ∧
    (∀ g : Unit → Val, f.dflt = .producer g →
      f.clean .undefined = ⟨.ok (g ()), 1, 0, 0⟩) ∧
    (∀ v : Val, f.dflt = .value v →
      f.clean .undefined = ⟨.ok v, 0, 0, 0⟩) := by
  refine ⟨fun h => ?_, fun g h => ?_, fun v h => ?_⟩ <;>
    simp [FieldDef.clean, h, requiredError]

/-- Witness for C3: the three default configurations of an `IntField`,
as in the library's own tests. -/
theorem clean_absent_input_witness :
    intField.clean .undefined =
      ⟨.error (.validation (VErr.single "This field is required"
        (some ErrorCode.required))), 0, 0, 0⟩ ∧
    (intField.setDefault (.producer (fun _ => .int 3))).clean .undefined =
      ⟨.ok (.int 3), 1, 0, 0⟩ ∧
    (intField.setDefault (.value (.int 2))).clean .undefined =
      ⟨.ok (.int 2), 0, 0, 0⟩ :=
  ⟨(clean_absent_input intField).1 rfl,
   (clean_absent_input (intField.setDefault (.producer (fun _ => .int 3)))).2.1
     (fun _ => .int 3) rfl,
   (clean_absent_input (intField.setDefault (.value (.int 2)))).2.2 (.int 2) rfl⟩

/-! ### Claim C4: the `OptionalField.clean` contract -/

/-- C4.  For every wrapped field `f`, whatever its constraints:
an `OptionalField` configured as omissible (a `None` default, as
produced by `.opt().default(None)`) cleans the sentinel directly to
`None` without invoking any producer, `convert` or `validate` — in
particular the wrapped required-check never runs; `OptionalField.convert`
on any non-`None` value delegates to the wrapped field's `convert`; and a
present `None` cleans to `None` (the one `convert`/`validate` invocation
being the `OptionalField`'s own, which short-circuits on `None` without
consulting `f` — the result is the same for every wrapped field). -/
theorem optional_field_clean (f : FieldDef) :
    ((f.opt.setDefault (.value .null)).clean .undefined = ⟨.ok .null, 0, 0, 0⟩) ∧
    (∀ v : Val, v ≠ .null → f.opt.convert v = f.convert v) ∧
    (f.opt.clean (.val .null) = ⟨.ok .null, 0, 1, 1⟩) := by
  refine ⟨?_, fun v hv => ?_, ?_⟩
  · rfl
  · cases v <;> simp_all [FieldDef.opt]
  · rfl

/-- Witness for C4 at a bounded `IntField` (whose own validation would
reject most inputs): null-cleaning ignores the wrapped constraints. -/
theorem optional_field_clean_witness :
    (((IntField.make Option.none (some 1) Option.none Option.none).opt.setDefault
        (.value .null)).clean .undefined = ⟨.ok .null, 0, 0, 0⟩) ∧
    ((IntField.make Option.none (some 1) Option.none Option.none).opt.convert
        (.str "7") =
      (IntField.make Option.none (some 1) Option.none Option.none).convert
        (.str "7")) ∧
    ((IntField.make Option.none (some 1) Option.none Option.none).opt.clean
        (.val .null) = ⟨.ok .null, 0, 1, 1⟩) :=
  ⟨(optional_field_clean
      (IntField.make Option.none (some 1) Option.none Option.none)).1,
   (optional_field_clean
      (IntField.make Option.none (some 1) Option.none Option.none)).2.1
      (.str "7") (by intro h; cases h),
   (optional_field_clean
      (IntField.make Option.none (some 1) Option.none Option.none)).2.2⟩

/-! ### Claim C10: instance equality -/

theorem pyDictSub_iff (d e : List (String × Val)) :
    pyDictSub d e = true ↔
      ∀ k v, (k, v) ∈ d → ∃ w, alistGet e k = some w ∧ pyEq v w = true := by
  induction d with
  | nil => simp [pyDictSub]
  | cons kv rest ih =>
    obtain ⟨k0, v0⟩ := kv
    simp only [pyDictSub, Bool.and_eq_true]
    constructor
    · rintro ⟨h1, h2⟩ k v hm
      rcases List.mem_cons.1 hm with hm | hm
      · injection hm with e1 e2
        subst e1
        subst e2
        cases hg : alistGet e k with
        | none => rw [hg] at h1; cases h1
        | some w =>
          rw [hg] at h1
          exact ⟨w, rfl, h1⟩
      · exact (ih.1 h2) k v hm
    · intro h
      constructor
      · obtain ⟨w, hw, hp⟩ := h k0 v0 (List.mem_cons_self _ _)
        rw [hw]
        exact hp
      · exact ih.2 (fun k v hm => h k v (List.mem_cons_of_mem _ hm))

theorem keysSub_iff (e d : List (String × Val)) :
    keysSub e d = true ↔ ∀ k v, (k, v) ∈ e → (alistGet d k).isSome := by
  simp only [keysSub, List.all_eq_true]
  constructor
  · intro h k v hm
    exact h (k, v) hm
  · intro h kv hm
    exact h kv.1 kv.2 hm

/-- C10.  `Cleaned.__eq__` is decided by the stored `_data` mappings
alone: an instance with data `d` equals an instance of an arbitrary
record type with data `e` (the type name `t'` is universally
quantified and never inspected) exactly when the two mappings are
extensionally Python-equal; and comparison against any non-instance
value is `false` rather than an error. -/
theorem record_equality (d e : List (String × Val)) (t' : String)
    (hd : (alistKeys d).Nodup) :
    (cleanedEq d (.record t' e) = true ↔ dictEquivPy d e) ∧
    (∀ v : Val, v.isRecord = false → cleanedEq d v = false) := by
  constructor
  · simp only [cleanedEq, pyDictEq, Bool.and_eq_true]
    constructor
    · rintro ⟨hsub, hkeys⟩
      rw [pyDictSub_iff] at hsub
      rw [keysSub_iff] at hkeys
      refine ⟨fun k => ⟨fun hs => ?_, fun hs => ?_⟩, fun k v w hv hw => ?_⟩
      · obtain ⟨v, hv⟩ := Option.isSome_iff_exists.1 hs
        obtain ⟨w, hw, _⟩ := hsub k v (alistGet_mem hv)
        rw [hw]
        rfl
      · obtain ⟨w, hw⟩ := Option.isSome_iff_exists.1 hs
        exact hkeys k w (alistGet_mem hw)
      · obtain ⟨w', hw', hp⟩ := hsub k v (alistGet_mem hv)
        rw [hw'] at hw
        cases hw
        exact hp
    · rintro ⟨hiff, hval⟩
      constructor
      · rw [pyDictSub_iff]
        intro k v hm
        have hv : alistGet d k = some v := alistGet_of_mem_nodup hd hm
        have hs : (alistGet e k).isSome := (hiff k).1 (by rw [hv]; rfl)
        obtain ⟨w, hw⟩ := Option.isSome_iff_exists.1 hs
        exact ⟨w, hw, hval k v w hv hw⟩
      · rw [keysSub_iff]
        intro k w hm
        exact (hiff k).2 (mem_alistGet_isSome hm)
  · intro v hv
    cases v <;> simp_all [cleanedEq, Val.isRecord]

/-- Witness for C10: equal one-field data mappings under different type
names compare equal; comparison with a boolean is `false`. -/
theorem record_equality_witness :
    dictEquivPy [("a", Val.int 1)] [("a", Val.int 1)] ∧
    cleanedEq [("a", Val.int 1)] (.bool true) = false :=
  ⟨(record_equality [("a", .int 1)] [("a", .int 1)] "Other"
      (by simp [alistKeys])).1.mp rfl,
   (record_equality [("a", .int 1)] [("a", .int 1)] "Other"
      (by simp [alistKeys])).2 (.bool true) rfl⟩

/-! ### Example record types used by the witnesses (mirroring the
library's own test suite) -/

/-- A record with two unconstrained required int fields. -/
def exFieldsAB : RecordDef :=
  { name := "C", fields := [("a", intField), ("b", intField)] }

/-- Member `A` of the test tagged union: tag `a` plus two bounded ints. -/
def exRecA : RecordDef :=
  { name := "A", fields := [("tag", TagField.make ["a"]),
      ("one", IntField.make Option.none (some 1) Option.none Option.none),
      ("two", IntField.make Option.none (some 2) Option.none Option.none)] }

/-- Member `B` of the test tagged union: tag `b` plus one bounded int. -/
def exRecB : RecordDef :=
  { name := "B", fields := [("tag", TagField.make ["b"]),
      ("one", IntField.make Option.none (some 1) Option.none Option.none)] }

/-- A record declaring a `TagField` under a different field name. -/
def exRecIrrelevant : RecordDef :=
  { name := "Irrelevant", fields := [("other_tag_name", TagField.make ["i"])] }

/-- A record whose tag set overlaps `exRecA`. -/
def exRecAA : RecordDef :=
  { name := "AA", fields := [("tag", TagField.make ["a"]),
      ("one", IntField.make Option.none (some 1) Option.none Option.none),
      ("two", IntField.make Option.none (some 2) Option.none Option.none)] }

/-- The `ValidationError` raised by `self.Error(msg)` in a property body. -/
def userErr (msg : String) : VErr := VErr.mk [⟨msg, Option.none⟩] []

/-- The `twice_as_value` property body of the library's tests: read
`self.value` and `self.max`, raise when `value * 2 > max`, return
`value * 2` otherwise. -/
def twiceBody : Body := .getattr "value" (fun v => .getattr "max" (fun m =>
  match v, m with
  | .int a, .int b =>
    if a * 2 > b then .raiseErr (userErr "must be value * 2 <= max")
    else .ret (.int (a * 2))
  | _, _ => .raiseExc "TypeError" "unsupported operand"))

/-- Test record for dependency gating: `twice_as_value` is attached to
the `value` field and depends on `value`, `max` and `min`. -/
def exGate : RecordDef :=
  { name := "C4",
    fields := [("value", intField), ("max", intField), ("min", intField)],
    props := [{ name := "twice_as_value", key := some "value",
                dependsOn := DepList.ofList [.fld "value", .fld "max", .fld "min"],
                clean := runBody twiceBody }] }

/-- Test record for undeclared dependency access: the property declares
only `value` but its body also reads `max`. -/
def exUndeclared : RecordDef :=
  { name := "C3", fields := [("value", intField), ("max", intField)],
    props := [{ name := "twice_as_value", dependsOn := DepList.ofList [.fld "value"],
                clean := runBody twiceBody }] }

/-- A JSON parser that rejects every string, standing in for
`json.loads` in examples that never offer string input. -/
def jsonFail : String → Except PyExc Val :=
  fun _ => .error (.exc "ValueError" "invalid json")

/-- An inner record with one required int field. -/
def exInner : RecordDef := { name := "Inner", fields := [("x", intField)] }

/-- A `NestedField` over `exInner`. -/
def exInnerNF : FieldDef := NestedField.make jsonFail exInner

/-- An outer record holding `exInner` under a `NestedField`. -/
def exOuter : RecordDef := { name := "Outer", fields := [("n", exInnerNF)] }

/-- A contract-conforming custom field whose `convert` is not
idempotent: it increments its integer input. -/
def incField : FieldDef :=
  { clsName := "IncField"
    convert := fun v =>
      match v with
      | .int n => .ok (.int (n + 1))
      | _ => .error (.exc "TypeError" "int expected")
    validate := fun _ => Option.none }

/-- A record over the incrementing field. -/
def incRec : RecordDef := { name := "Inc", fields := [("x", incField)] }

/-- A `NestedField` over `incRec`. -/
def incNF : FieldDef := NestedField.make jsonFail incRec

/-! ### Claim C7: `TaggedUnion.__call__` dispatch -/

/-- C7.  For every constructed tagged union and raw input: an absent or
`None` discriminator is replaced by the configured fallback tag
(injected into the keyword arguments under the discriminator key, so
dispatch proceeds exactly as if the fallback had been supplied); a
present mapped tag delegates construction entirely to the selected
member type on the same raw input, so the outcome — including every
field/property error — is exactly that member's; a present unmapped
tag (a non-`None` string outside the mapping, or any non-string) fails
with the single dispatch-level `TypeError` saying the type is
indeterminable, which is not a `ValidationError` and in particular
carries no nested per-field error map. -/
theorem tagged_union_dispatch (u : TaggedUnionDef) (kwargs : List (String × Val)) :
    ((alistGet kwargs u.tagFieldName = Option.none ∨
      alistGet kwargs u.tagFieldName = some .null) →
      tunionCall u kwargs =
        tunionCall u (alistSet kwargs u.tagFieldName (.str u.fallback))) ∧
    (∀ s cl, alistGet kwargs u.tagFieldName = some (.str s) →
      alistGet u.mapping s = some cl →
      tunionCall u kwargs = recordInit cl kwargs) ∧
    (∀ s, alistGet kwargs u.tagFieldName = some (.str s) →
      alistGet u.mapping s = Option.none →
      tunionCall u kwargs =
        .fatal "TypeError" "The type is indeterminable from given values." ∧
      ∀ e, tunionCall u kwargs ≠ .vErr e) ∧
    (∀ v, alistGet kwargs u.tagFieldName = some v →
      v ≠ .null → (∀ s, v ≠ .str s) →
      tunionCall u kwargs =
        .fatal "TypeError" "The type is indeterminable from given values.") := by
  refine ⟨fun h => ?_, fun s cl h hm => ?_, fun s h hm => ⟨?_, ?_⟩,
    fun v h hnull hstr => ?_⟩
  · rcases h with h | h <;>
      simp [tunionCall, h, alistGet_set_self]
  · simp [tunionCall, h, hm]
  · simp [tunionCall, h, hm]
  · intro e he
    simp only [tunionCall, h, hm] at he
    cases he
  · cases v with
    | null => exact absurd rfl hnull
    | str s => exact absurd rfl (hstr s)
    | bool b => simp [tunionCall, h]
    | int n => simp [tunionCall, h]
    | list xs => simp [tunionCall, h]
    | dict es => simp [tunionCall, h]
    | record t dd => simp [tunionCall, h]

/-- The test tagged union over `exRecA` and `exRecB` with fallback `a`
(its mapping as `TaggedUnion.__init__` builds it). -/
def exUnion : TaggedUnionDef :=
  ⟨"tag", "a", [exRecA, exRecB], [("a", exRecA), ("b", exRecB)]⟩

/-- Witness for C7 over the test union of `exRecA` and `exRecB` with
fallback `a`: absent tag falls back, tag `b` delegates to `B`, tag `z`
is indeterminable. -/
theorem tagged_union_dispatch_witness :
    (tunionCall exUnion [("one", .int 1), ("two", .int 2)] =
      tunionCall exUnion
        (alistSet [("one", .int 1), ("two", .int 2)] "tag" (.str "a"))) ∧
    (tunionCall exUnion [("tag", .str "b"), ("one", .int 1)] =
      recordInit exRecB [("tag", .str "b"), ("one", .int 1)]) ∧
    (tunionCall exUnion [("tag", .str "z")] =
      .fatal "TypeError" "The type is indeterminable from given values.") :=
  ⟨(tagged_union_dispatch exUnion [("one", .int 1), ("two", .int 2)]).1 (Or.inl rfl),
   (tagged_union_dispatch exUnion [("tag", .str "b"), ("one", .int 1)]).2.1
      "b" exRecB rfl rfl,
   ((tagged_union_dispatch exUnion [("tag", .str "z")]).2.2.1 "z" rfl rfl).1⟩

/-! ### Claim C8: `TaggedUnion.__init__` member-set validation -/

theorem addMemberTags_preserve (cl : RecordDef) (ts : List String)
    (mp mp' : List (String × RecordDef)) (h : addMemberTags cl ts mp = .ok mp')
    (t : String) (x : RecordDef) (hx : alistGet mp t = some x) :
    alistGet mp' t = some x := by
  induction ts generalizing mp with
  | nil =>
    simp only [addMemberTags] at h
    cases h
    exact hx
  | cons t0 rest ih =>
    simp only [addMemberTags] at h
    by_cases h0 : (alistGet mp t0).isSome
    · rw [if_pos h0] at h
      cases h
    · rw [if_neg h0] at h
      refine ih (alistSet mp t0 cl) h ?_
      have hne : t ≠ t0 := by
        intro he
        subst he
        rw [hx] at h0
        exact h0 rfl
      rw [alistGet_set_ne _ _ _ _ hne]
      exact hx

theorem addMemberTags_mem (cl : RecordDef) (ts : List String)
    (mp mp' : List (String × RecordDef)) (h : addMemberTags cl ts mp = .ok mp') :
    ∀ t ∈ ts, alistGet mp' t = some cl := by
  induction ts generalizing mp with
  | nil => intro t ht; simp at ht
  | cons t0 rest ih =>
    intro t ht
    simp only [addMemberTags] at h
    by_cases h0 : (alistGet mp t0).isSome
    · rw [if_pos h0] at h
      cases h
    · rw [if_neg h0] at h
      rcases List.mem_cons.1 ht with he | hmem
      · subst he
        exact addMemberTags_preserve cl rest _ _ h t cl (alistGet_set_self _ _ _)
      · exact ih (alistSet mp t0 cl) h t hmem

theorem buildMapping_preserve (tf : String) (l : List RecordDef)
    (mp mp' : List (String × RecordDef)) (h : buildMapping tf l mp = .ok mp')
    (t : String) (x : RecordDef) (hx : alistGet mp t = some x) :
    alistGet mp' t = some x := by
  induction l generalizing mp with
  | nil =>
    simp only [buildMapping] at h
    cases h
    exact hx
  | cons cl rest ih =>
    cases hf : alistGet cl.fields tf with
    | none => simp only [buildMapping, hf] at h; cases h
    | some f =>
      cases hts : f.tags with
      | none => simp only [buildMapping, hf, hts] at h; cases h
      | some ts =>
        cases ha : addMemberTags cl ts mp with
        | error e => simp only [buildMapping, hf, hts, ha] at h; cases h
        | ok mp1 =>
          simp only [buildMapping, hf, hts, ha] at h
          exact ih mp1 h (addMemberTags_preserve cl ts mp mp1 ha t x hx)

theorem buildMapping_has_tagfield (tf : String) (l : List RecordDef)
    (mp mp' : List (String × RecordDef)) (h : buildMapping tf l mp = .ok mp') :
    ∀ cl ∈ l, ∃ f ts, alistGet cl.fields tf = some f ∧ f.tags = some ts := by
  induction l generalizing mp with
  | nil => intro cl hcl; simp at hcl
  | cons cl0 rest ih =>
    intro cl hcl
    cases hf : alistGet cl0.fields tf with
    | none => simp only [buildMapping, hf] at h; cases h
    | some f =>
      cases hts : f.tags with
      | none => simp only [buildMapping, hf, hts] at h; cases h
      | some ts =>
        cases ha : addMemberTags cl0 ts mp with
        | error e => simp only [buildMapping, hf, hts, ha] at h; cases h
        | ok mp1 =>
          simp only [buildMapping, hf, hts, ha] at h
          rcases List.mem_cons.1 hcl with he | hmem
          · subst he
            exact ⟨f, ts, hf, hts⟩
          · exact ih mp1 h cl hmem

theorem buildMapping_member_tags (tf : String) (l : List RecordDef)
    (mp mp' : List (String × RecordDef)) (h : buildMapping tf l mp = .ok mp') :
    ∀ cl ∈ l, ∀ f ts, alistGet cl.fields tf = some f → f.tags = some ts →
      ∀ t ∈ ts, alistGet mp' t = some cl := by
  induction l generalizing mp with
  | nil => intro cl hcl; simp at hcl
  | cons cl0 rest ih =>
    intro cl hcl f ts hf hts t ht
    cases hf0 : alistGet cl0.fields tf with
    | none => simp only [buildMapping, hf0] at h; cases h
    | some f0 =>
      cases hts0 : f0.tags with
      | none => simp only [buildMapping, hf0, hts0] at h; cases h
      | some ts0 =>
        cases ha : addMemberTags cl0 ts0 mp with
        | error e => simp only [buildMapping, hf0, hts0, ha] at h; cases h
        | ok mp1 =>
          simp only [buildMapping, hf0, hts0, ha] at h
          rcases List.mem_cons.1 hcl with he | hmem
          · subst he
            rw [hf0] at hf
            cases hf
            rw [hts0] at hts
            cases hts
            exact buildMapping_preserve tf rest mp1 mp' h t cl
              (addMemberTags_mem cl _ mp mp1 ha t ht)
          · exact ih mp1 h cl hmem f ts hf hts t ht

theorem tunionMake_ok (tf fb : String) (cleaneds : List RecordDef)
    (u : TaggedUnionDef) (h : tunionMake tf cleaneds fb = .ok u) :
    buildMapping tf (dedupMembers cleaneds) [] = .ok u.mapping ∧
    u.members = dedupMembers cleaneds ∧
    (fb == "" || (alistGet u.mapping fb).isSome) = true := by
  cases hb : buildMapping tf (dedupMembers cleaneds) [] with
  | error e => simp only [tunionMake, hb] at h; cases h
  | ok mp =>
    simp only [tunionMake, hb] at h
    by_cases hc : (fb == "" || (alistGet mp fb).isSome) = true
    · rw [if_pos hc] at h
      cases h
      exact ⟨rfl, rfl, hc⟩
    · rw [if_neg hc] at h
      cases h

theorem dedupStep_any_preserve (l : List RecordDef) (acc : List RecordDef)
    (s : String) (hx : acc.any (fun m => m.name == s) = true) :
    (l.foldl (fun acc cl =>
        if acc.any (fun m => m.name == cl.name) then acc else acc ++ [cl])
      acc).any (fun m => m.name == s) = true := by
  induction l generalizing acc with
  | nil => exact hx
  | cons cl rest ih =>
    simp only [List.foldl_cons]
    by_cases hc : acc.any (fun m => m.name == cl.name) = true
    · rw [if_pos hc]
      exact ih acc hx
    · rw [if_neg hc]
      refine ih _ ?_
      simp only [List.any_append, hx, Bool.true_or]

theorem dedupStep_mem_any (l : List RecordDef) (acc : List RecordDef)
    (x : RecordDef) (hx : x ∈ l) :
    (l.foldl (fun acc cl =>
        if acc.any (fun m => m.name == cl.name) then acc else acc ++ [cl])
      acc).any (fun m => m.name == x.name) = true := by
  induction l generalizing acc with
  | nil => simp at hx
  | cons cl rest ih =>
    simp only [List.foldl_cons]
    rcases List.mem_cons.1 hx with he | hmem
    · subst he
      by_cases hc : acc.any (fun m => m.name == x.name) = true
      · rw [if_pos hc]
        exact dedupStep_any_preserve rest acc x.name hc
      · rw [if_neg hc]
        refine dedupStep_any_preserve rest _ x.name ?_
        simp
    · by_cases hc : acc.any (fun m => m.name == cl.name) = true
      · rw [if_pos hc]
        exact ih acc hmem
      · rw [if_neg hc]
        exact ih _ hmem

theorem dedupMembers_skip_dup (pre post : List RecordDef) (m : RecordDef)
    (h : pre.any (fun x => x.name == m.name) = true) :
    dedupMembers (pre ++ m :: post) = dedupMembers (pre ++ post) := by
  obtain ⟨x, hxmem, hxn⟩ := List.any_eq_true.1 h
  simp only [dedupMembers, List.foldl_append, List.foldl_cons]
  have hb : (pre.foldl (fun acc cl =>
      if acc.any (fun m => m.name == cl.name) then acc else acc ++ [cl])
      ([] : List RecordDef)).any (fun y => y.name == m.name) = true := by
    have hx := dedupStep_mem_any pre [] x hxmem
    have hnm : x.name = m.name := by simpa using hxn
    rw [← hnm]
    exact hx
  rw [if_pos hb]

/-- C8.  `TaggedUnion.__init__` validates the member set at
union-construction time: (1) a member with no `TagField` declared under
the discriminator name makes construction fail; (2) on success every
tag of every member maps to that very member, so (3) a tag value shared
by two distinct members makes construction fail; (4) a configured
non-empty fallback is always one of the mapped tags on success; and
(5) a member type repeated (by identity) after an earlier occurrence is
silently dropped — construction behaves exactly as if it were listed
once. -/
theorem tagged_union_construction (tf fb : String) (cleaneds : List RecordDef) :
    (∀ cl ∈ dedupMembers cleaneds,
      (¬ ∃ f ts, alistGet cl.fields tf = some f ∧ f.tags = some ts) →
      ∃ msg, tunionMake tf cleaneds fb = .error msg) ∧
    (∀ u, tunionMake tf cleaneds fb = .ok u →
      ∀ cl ∈ u.members, ∀ f ts, alistGet cl.fields tf = some f → f.tags = some ts →
        ∀ t ∈ ts, alistGet u.mapping t = some cl) ∧
    (∀ cl1 cl2 f1 ts1 f2 ts2 t,
      cl1 ∈ dedupMembers cleaneds → cl2 ∈ dedupMembers cleaneds →
      alistGet cl1.fields tf = some f1 → f1.tags = some ts1 →
      alistGet cl2.fields tf = some f2 → f2.tags = some ts2 →
      t ∈ ts1 → t ∈ ts2 → cl1 ≠ cl2 →
      ∃ msg, tunionMake tf cleaneds fb = .error msg) ∧
    (fb ≠ "" → ∀ u, tunionMake tf cleaneds fb = .ok u →
      (alistGet u.mapping fb).isSome = true) ∧
    (∀ pre m post, cleaneds = pre ++ m :: post →
      pre.any (fun x => x.name == m.name) = true →
      tunionMake tf cleaneds fb = tunionMake tf (pre ++ post) fb) := by
  refine ⟨?_, ?_, ?_, ?_, ?_⟩
  · intro cl hcl hne
    cases hr : tunionMake tf cleaneds fb with
    | error e => exact ⟨e, rfl⟩
    | ok u =>
      obtain ⟨hb, _, _⟩ := tunionMake_ok tf fb cleaneds u hr
      exact absurd (buildMapping_has_tagfield tf _ [] u.mapping hb cl hcl) hne
  · intro u hr cl hcl f ts hf hts t ht
    obtain ⟨hb, hmem, _⟩ := tunionMake_ok tf fb cleaneds u hr
    rw [hmem] at hcl
    exact buildMapping_member_tags tf _ [] u.mapping hb cl hcl f ts hf hts t ht
  · intro cl1 cl2 f1 ts1 f2 ts2 t hm1 hm2 hf1 hts1 hf2 hts2 ht1 ht2 hne
    cases hr : tunionMake tf cleaneds fb with
    | error e => exact ⟨e, rfl⟩
    | ok u =>
      obtain ⟨hb, hmem, _⟩ := tunionMake_ok tf fb cleaneds u hr
      have h1 := buildMapping_member_tags tf _ [] u.mapping hb cl1
        (hmem ▸ hm1) f1 ts1 hf1 hts1 t ht1
      have h2 := buildMapping_member_tags tf _ [] u.mapping hb cl2
        (hmem ▸ hm2) f2 ts2 hf2 hts2 t ht2
      rw [h1] at h2
      cases h2
      exact absurd rfl hne
  · intro hfb u hr
    obtain ⟨_, _, hc⟩ := tunionMake_ok tf fb cleaneds u hr
    simp only [Bool.or_eq_true, beq_iff_eq] at hc
    rcases hc with hfb' | hs
    · exact absurd hfb' hfb
    · exact hs
  · intro pre m post hcl hany
    subst hcl
    simp only [tunionMake, dedupMembers_skip_dup pre post m hany]

/-- Witness for C8, mirroring the library's union tests: a member
without a `tag`-named `TagField` is rejected; members `A` and `AA`
sharing tag `a` are rejected; fallback `a` is mapped on success; a
duplicated member `A` is dropped. -/
theorem tagged_union_construction_witness :
    (∃ msg, tunionMake "tag" [exRecA, exRecIrrelevant] "" = .error msg) ∧
    (∃ msg, tunionMake "tag" [exRecA, exRecAA] "" = .error msg) ∧
    ((alistGet exUnion.mapping "a").isSome = true) ∧
    (tunionMake "tag" [exRecA, exRecA, exRecB] "" =
      tunionMake "tag" [exRecA, exRecB] "") :=
  ⟨(tagged_union_construction "tag" "" [exRecA, exRecIrrelevant]).1
      exRecIrrelevant (List.mem_cons_of_mem _ (List.mem_cons_self _ _))
      (by rintro ⟨f, ts, hf, _⟩; cases hf),
   (tagged_union_construction "tag" "" [exRecA, exRecAA]).2.2.1
      exRecA exRecAA (TagField.make ["a"]) ["a"] (TagField.make ["a"]) ["a"] "a"
      (List.mem_cons_self _ _) (List.mem_cons_of_mem _ (List.mem_cons_self _ _))
      rfl rfl rfl rfl (List.mem_singleton.2 rfl) (List.mem_singleton.2 rfl)
      (by intro h; exact absurd (congrArg RecordDef.name h) (by decide)),
   (tagged_union_construction "tag" "a" [exRecA, exRecB]).2.2.2.1
      (by decide) exUnion rfl,
   (tagged_union_construction "tag" "" [exRecA, exRecA, exRecB]).2.2.2.2
      [exRecA] exRecA [exRecB] rfl (by decide)⟩

/-! ### Claim C1: atomic failure with a combined error -/

theorem foldl_append_items (unnamed : List VErr) (init : List VItem) :
    unnamed.foldl (fun acc e => acc ++ e.items) init =
      init ++ (unnamed.map VErr.items).flatten := by
  induction unnamed generalizing init with
  | nil => simp
  | cons e rest ih =>
    simp only [List.foldl_cons, List.map_cons, List.flatten_cons, ih, List.append_assoc]

theorem foldl_alistSet_isSome (l : List (String × VErr))
    (acc : List (String × VErr)) (n : String)
    (h : (alistGet acc n).isSome) :
    (alistGet (l.foldl (fun a kv => alistSet a kv.1 kv.2) acc) n).isSome := by
  induction l generalizing acc with
  | nil => exact h
  | cons kv rest ih =>
    simp only [List.foldl_cons]
    exact ih _ (alistGet_set_isSome _ _ _ _ h)

theorem combineErrors_nested_isSome (unnamed : List VErr)
    (errors : List (String × VErr)) (n : String)
    (h : (alistGet errors n).isSome) :
    (alistGet (combineErrors unnamed errors).nested n).isSome := by
  simp only [combineErrors, VErr.nested]
  induction unnamed generalizing errors with
  | nil => exact h
  | cons e rest ih =>
    simp only [List.foldl_cons]
    exact ih _ (foldl_alistSet_isSome e.nested errors n h)

/-- C1.  Whenever record construction reaches the end of both phases
with any recorded name-keyed error or any accumulated unnested failure,
it fails atomically: the result is exactly one raised combined
`ValidationError` (never an instance) whose top-level items are the
concatenated items of the unnested failures, and whose nested map keeps
an entry for every name under which a field or property failure was
recorded. -/
theorem record_error_aggregation (rec : RecordDef) (kwargs : List (String × Val))
    (st : PropState) (h : recordInitCore rec kwargs = .ok st)
    (hne : st.errors ≠ [] ∨ st.unnamed ≠ []) :
    recordInit rec kwargs = .vErr (combineErrors st.unnamed st.errors) ∧
    (∀ inst, recordInit rec kwargs ≠ .ok inst) ∧
    (combineErrors st.unnamed st.errors).items =
      (st.unnamed.map VErr.items).flatten ∧
    (∀ n, (alistGet st.errors n).isSome →
      (alistGet (combineErrors st.unnamed st.errors).nested n).isSome) := by
  have hcond : (st.unnamed.isEmpty && st.errors.isEmpty) = false := by
    rcases hne with h1 | h1 <;> cases hu : st.unnamed <;> cases he : st.errors <;>
      simp_all [List.isEmpty]
  have hmain : recordInit rec kwargs = .vErr (combineErrors st.unnamed st.errors) := by
    simp only [recordInit, h, hcond, Bool.false_eq_true, if_false]
  refine ⟨hmain, fun inst heq => ?_, ?_, fun n hn => ?_⟩
  · rw [hmain] at heq
    cases heq
  · simp only [combineErrors, VErr.items]
    exact foldl_append_items st.unnamed []
  · exact combineErrors_nested_isSome st.unnamed st.errors n hn

/-- Witness for C1 on a record with two independently-failing required
fields: both names appear in the nested map of the single combined
error, and fixing one input leaves exactly the other. -/
theorem record_error_aggregation_witness :
    recordInit exFieldsAB [] =
      .vErr (VErr.mk [] [("a", requiredError), ("b", requiredError)]) ∧
    recordInit exFieldsAB [("a", .int 1)] =
      .vErr (VErr.mk [] [("b", requiredError)]) :=
  ⟨(record_error_aggregation exFieldsAB []
      ⟨[], [("a", requiredError), ("b", requiredError)], [], []⟩ rfl
      (Or.inl (by simp))).1,
   (record_error_aggregation exFieldsAB [("a", .int 1)]
      ⟨[("a", .int 1)], [("b", requiredError)], [], []⟩ rfl
      (Or.inl (by simp))).1⟩

/-! ### Claim C2: dependency gating -/

theorem alistGet_isSome_ne_nil {α : Type} {l : List (String × α)} {k : String}
    (h : (alistGet l k).isSome) : l ≠ [] := by
  cases l with
  | nil => simp [alistGet] at h
  | cons kv rest => simp

theorem alistGet_none_keys {α : Type} {l : List (String × α)} {k : String}
    (h : alistGet l k = Option.none) : ∀ kv ∈ l, kv.1 ≠ k := by
  induction l with
  | nil => intro kv hkv; simp at hkv
  | cons kv0 rest ih =>
    intro kv hkv
    by_cases hk : kv0.1 = k
    · rw [show alistGet (kv0 :: rest) k = some kv0.2 from by
        simp [alistGet, hk]] at h
      cases h
    · simp only [alistGet, if_neg hk] at h
      rcases List.mem_cons.1 hkv with he | hmem
      · subst he
        exact hk
      · exact ih h kv hmem

theorem foldl_alistSet_none {α : Type} (l : List (String × α))
    (acc : List (String × α)) (n : String)
    (hl : ∀ kv ∈ l, kv.1 ≠ n) (h : alistGet acc n = Option.none) :
    alistGet (l.foldl (fun a kv => alistSet a kv.1 kv.2) acc) n = Option.none := by
  induction l generalizing acc with
  | nil => exact h
  | cons kv rest ih =>
    simp only [List.foldl_cons]
    refine ih _ (fun x hx => hl x (List.mem_cons_of_mem _ hx)) ?_
    rw [alistGet_set_ne _ _ _ _ (fun he => hl kv (by simp) he.symm)]
    exact h

theorem combineErrors_nested_none (unnamed : List VErr) :
    ∀ (errors : List (String × VErr)) (n : String),
    (∀ e ∈ unnamed, alistGet e.nested n = Option.none) →
    alistGet errors n = Option.none →
    alistGet (combineErrors unnamed errors).nested n = Option.none := by
  induction unnamed with
  | nil => intro errors n _ he; exact he
  | cons e rest ih =>
    intro errors n hu he
    simp only [combineErrors, VErr.nested, List.foldl_cons]
    have hrec := ih (e.nested.foldl (fun a kv => alistSet a kv.1 kv.2) errors) n
      (fun x hx => hu x (List.mem_cons_of_mem _ hx))
      (foldl_alistSet_none e.nested errors n
        (alistGet_none_keys (hu e (by simp))) he)
    simpa [combineErrors, VErr.nested] using hrec

theorem propStep_gating (P : PropDef) (X : String) (st st1 : PropState) (q : PropDef)
    (h : propStep st q = .ok st1)
    (hqX : q.name ≠ X)
    (hqgate : q.name = P.name → X ∈ dependsOnPropnames q.dependsOn)
    (hqkey : q.key ≠ some P.name)
    (hqnest : ∀ view e, q.clean view = .vErr e →
      alistGet e.nested P.name = Option.none)
    (hX : alistGet st.data X = Option.none)
    (h1 : P.name ∉ st.invoked)
    (h2 : alistGet st.data P.name = Option.none)
    (h3 : alistGet st.errors P.name = Option.none)
    (h4 : ∀ e ∈ st.unnamed, alistGet e.nested P.name = Option.none) :
    alistGet st1.data X = Option.none ∧
    P.name ∉ st1.invoked ∧
    alistGet st1.data P.name = Option.none ∧
    alistGet st1.errors P.name = Option.none ∧
    (∀ e ∈ st1.unnamed, alistGet e.nested P.name = Option.none) := by
  simp only [propStep] at h
  by_cases hc : (mkView st.data (dependsOnPropnames q.dependsOn)).length =
      (dependsOnPropnames q.dependsOn).length
  · rw [if_pos hc] at h
    have hqP : q.name ≠ P.name := by
      intro he
      exact absurd hc (Nat.ne_of_lt (mkView_length_lt _ _ X (hqgate he) hX))
    have hinv : P.name ∉ st.invoked ++ [q.name] := by
      intro hmem
      rcases List.mem_append.1 hmem with hmem | hmem
      · exact h1 hmem
      · rw [List.mem_singleton] at hmem
        exact hqP hmem.symm
    cases hcl : q.clean (mkView st.data (dependsOnPropnames q.dependsOn)) with
    | ok v =>
      rw [hcl] at h
      cases h
      refine ⟨?_, hinv, ?_, h3, h4⟩
      · rw [alistGet_set_ne _ _ _ _ (fun he => hqX he.symm)]
        exact hX
      · rw [alistGet_set_ne _ _ _ _ (fun he => hqP he.symm)]
        exact h2
    | vErr e =>
      rw [hcl] at h
      cases hk : q.key with
      | some k =>
        rw [hk] at h
        cases h
        refine ⟨hX, hinv, h2, ?_, h4⟩
        have hkP : P.name ≠ k := by
          intro he
          exact hqkey (by rw [hk, ← he])
        rw [alistGet_set_ne _ _ _ _ hkP]
        exact h3
      | none =>
        rw [hk] at h
        cases h
        refine ⟨hX, hinv, h2, h3, ?_⟩
        intro e' hmem
        rcases List.mem_append.1 hmem with hmem | hmem
        · exact h4 e' hmem
        · rw [List.mem_singleton] at hmem
          subst hmem
          exact hqnest _ _ hcl
    | dirty a => rw [hcl] at h; cases h
    | exc k m => rw [hcl] at h; cases h
  · rw [if_neg hc] at h
    cases h
    exact ⟨hX, h1, h2, h3, h4⟩

theorem propPhase_gating (P : PropDef) (X : String) (props : List PropDef) :
    ∀ st st' : PropState,
    propPhase props st = .ok st' →
    (∀ q ∈ props, q.name ≠ X) →
    (∀ q ∈ props, q.name = P.name → X ∈ dependsOnPropnames q.dependsOn) →
    (∀ q ∈ props, q.key ≠ some P.name) →
    (∀ q ∈ props, ∀ view e, q.clean view = .vErr e →
      alistGet e.nested P.name = Option.none) →
    alistGet st.data X = Option.none →
    P.name ∉ st.invoked →
    alistGet st.data P.name = Option.none →
    alistGet st.errors P.name = Option.none →
    (∀ e ∈ st.unnamed, alistGet e.nested P.name = Option.none) →
    P.name ∉ st'.invoked ∧ alistGet st'.data P.name = Option.none ∧
      alistGet st'.errors P.name = Option.none ∧
      (∀ e ∈ st'.unnamed, alistGet e.nested P.name = Option.none) := by
  induction props with
  | nil =>
    intro st st' h _ _ _ _ _ h1 h2 h3 h4
    simp only [propPhase] at h
    cases h
    exact ⟨h1, h2, h3, h4⟩
  | cons q rest ih =>
    intro st st' h hn hg hk hns hX h1 h2 h3 h4
    simp only [propPhase] at h
    cases hs : propStep st q with
    | ok st1 =>
      rw [hs] at h
      obtain ⟨gX, g1, g2, g3, g4⟩ := propStep_gating P X st st1 q hs
        (hn q (by simp)) (hg q (by simp)) (hk q (by simp)) (hns q (by simp))
        hX h1 h2 h3 h4
      exact ih st1 st' h
        (fun x hx => hn x (List.mem_cons_of_mem _ hx))
        (fun x hx => hg x (List.mem_cons_of_mem _ hx))
        (fun x hx => hk x (List.mem_cons_of_mem _ hx))
        (fun x hx => hns x (List.mem_cons_of_mem _ hx))
        gX g1 g2 g3 g4
    | error f => rw [hs] at h; cases h

/-- C2.  Dependency gating in record construction: if some transitive
dependency name `X` of the computed property/constraint `P` failed in
the field phase (an error was recorded under `X` and no value was
produced for it), then — provided `X` is not itself a property name,
every property sharing `P`'s name declares `X` among its transitive
dependencies, no property uses `P`'s name as its error key, and no
property raises an error whose nested map mentions `P`'s name — the
property `P` is never invoked, contributes no value to the working
data, its name does not appear in the nested map of the resulting
combined error, and no instance is produced. -/
theorem dependency_gating (rec : RecordDef) (kwargs : List (String × Val))
    (P : PropDef) (X : String) (fst : FieldState)
    (hfield : fieldPhase kwargs rec.fields ⟨[], []⟩ = .ok fst)
    (hXerr : (alistGet fst.errors X).isSome)
    (hXdata : alistGet fst.data X = Option.none)
    (hnames : ∀ q ∈ rec.props, q.name ≠ X)
    (hgate : ∀ q ∈ rec.props, q.name = P.name → X ∈ dependsOnPropnames q.dependsOn)
    (hkeys : ∀ q ∈ rec.props, q.key ≠ some P.name)
    (hnest : ∀ q ∈ rec.props, ∀ view e, q.clean view = .vErr e →
      alistGet e.nested P.name = Option.none)
    (hPdata : alistGet fst.data P.name = Option.none)
    (hPerr : alistGet fst.errors P.name = Option.none) :
    (∀ st, recordInitCore rec kwargs = .ok st →
      P.name ∉ st.invoked ∧ alistGet st.data P.name = Option.none) ∧
    (∀ e, recordInit rec kwargs = .vErr e →
      alistGet e.nested P.name = Option.none) ∧
    (∀ inst, recordInit rec kwargs ≠ .ok inst) := by
  have hcore : ∀ st, recordInitCore rec kwargs = .ok st →
      P.name ∉ st.invoked ∧ alistGet st.data P.name = Option.none ∧
      alistGet st.errors P.name = Option.none ∧
      (∀ e ∈ st.unnamed, alistGet e.nested P.name = Option.none) ∧
      st.errors ≠ [] := by
    intro st hst
    simp only [recordInitCore, hfield] at hst
    obtain ⟨g1, g2, g3, g4⟩ := propPhase_gating P X rec.props _ st hst
      hnames hgate hkeys hnest hXdata (by simp) hPdata hPerr (by simp)
    refine ⟨g1, g2, g3, g4, ?_⟩
    exact propPhase_errors_mono rec.props _ st hst (alistGet_isSome_ne_nil hXerr)
  refine ⟨fun st hst => ⟨(hcore st hst).1, (hcore st hst).2.1⟩, ?_, ?_⟩
  · intro e he
    cases hst : recordInitCore rec kwargs with
    | error f =>
      obtain ⟨k, m⟩ := f
      simp only [recordInit, hst] at he
      cases he
    | ok st =>
      obtain ⟨g1, g2, g3, g4, g5⟩ := hcore st hst
      have hcond : (st.unnamed.isEmpty && st.errors.isEmpty) = false := by
        cases hu : st.unnamed <;> cases herr : st.errors <;>
          simp_all [List.isEmpty]
      simp only [recordInit, hst, hcond, Bool.false_eq_true, if_false] at he
      cases he
      exact combineErrors_nested_none st.unnamed st.errors P.name g4 g3
  · intro inst he
    cases hst : recordInitCore rec kwargs with
    | error f =>
      obtain ⟨k, m⟩ := f
      simp only [recordInit, hst] at he
      cases he
    | ok st =>
      obtain ⟨g1, g2, g3, g4, g5⟩ := hcore st hst
      have hcond : (st.unnamed.isEmpty && st.errors.isEmpty) = false := by
        cases hu : st.unnamed <;> cases herr : st.errors <;>
          simp_all [List.isEmpty]
      simp only [recordInit, hst, hcond, Bool.false_eq_true, if_false] at he
      cases he

/-- The `ValidationError`s raised by `twiceBody` carry no nested map. -/
theorem twiceBody_vErr_nested (view : List (String × Val)) (e : VErr)
    (h : runBody twiceBody view = .vErr e) : alistGet e.nested "twice_as_value" = Option.none := by
  simp only [twiceBody, runBody] at h
  cases hv : alistGet view "value" with
  | none => rw [hv] at h; cases h
  | some v =>
    rw [hv] at h
    simp only [runBody] at h
    cases hm : alistGet view "max" with
    | none => rw [hm] at h; cases h
    | some m =>
      rw [hm] at h
      cases v <;> cases m <;> simp only [runBody] at h <;> try cases h
      case int.int a b =>
        by_cases hcmp : a * 2 > b
        · rw [if_pos hcmp] at h
          simp only [runBody] at h
          cases h
          rfl
        · rw [if_neg hcmp] at h
          simp only [runBody] at h
          cases h

/-- Witness for C2 on the `exGate` record with `min` absent: the
required-failure of `min` gates `twice_as_value` — it is not invoked,
stores nothing, and the one resulting error names only `min`. -/
theorem dependency_gating_witness :
    ("twice_as_value" ∉
      (⟨[("value", Val.int 1), ("max", Val.int 1)], [("min", requiredError)],
        [], []⟩ : PropState).invoked) ∧
    alistGet (VErr.mk [] [("min", requiredError)]).nested "twice_as_value" =
      Option.none :=
  ⟨((dependency_gating exGate [("value", .int 1), ("max", .int 1)]
      { name := "twice_as_value", key := some "value",
        dependsOn := DepList.ofList [.fld "value", .fld "max", .fld "min"],
        clean := runBody twiceBody }
      "min" ⟨[("value", .int 1), ("max", .int 1)], [("min", requiredError)]⟩
      rfl rfl rfl
      (by intro q hq; simp only [exGate] at hq; rw [List.mem_singleton] at hq; subst hq; decide)
      (by intro q hq _; simp only [exGate] at hq; rw [List.mem_singleton] at hq; subst hq; decide)
      (by intro q hq; simp only [exGate] at hq; rw [List.mem_singleton] at hq; subst hq; decide)
      (by intro q hq; simp only [exGate] at hq; rw [List.mem_singleton] at hq;
          subst hq; exact twiceBody_vErr_nested)
      rfl rfl).1
      ⟨[("value", .int 1), ("max", .int 1)], [("min", requiredError)], [], []⟩
      rfl).1,
   ((dependency_gating exGate [("value", .int 1), ("max", .int 1)]
      { name := "twice_as_value", key := some "value",
        dependsOn := DepList.ofList [.fld "value", .fld "max", .fld "min"],
        clean := runBody twiceBody }
      "min" ⟨[("value", .int 1), ("max", .int 1)], [("min", requiredError)]⟩
      rfl rfl rfl
      (by intro q hq; simp only [exGate] at hq; rw [List.mem_singleton] at hq; subst hq; decide)
      (by intro q hq _; simp only [exGate] at hq; rw [List.mem_singleton] at hq; subst hq; decide)
      (by intro q hq; simp only [exGate] at hq; rw [List.mem_singleton] at hq; subst hq; decide)
      (by intro q hq; simp only [exGate] at hq; rw [List.mem_singleton] at hq;
          subst hq; exact twiceBody_vErr_nested)
      rfl rfl).2.1
      (VErr.mk [] [("min", requiredError)]) rfl)⟩

/-! ### Claim C6: undeclared dependency access -/

/-- C6.  When a property or constraint whose dependencies are all
satisfied is invoked and its body escapes with a `DirtyFieldAccess` on
some attribute name `a` (which is necessarily not among the declared
transitive dependency names — conjunct three), the whole construction
call raises the fatal `AssertionError` naming the property and the
accessed attribute; no `ValidationError` is produced.  Conversely,
attribute access on any declared dependency name succeeds: the
restricted view holds its value and `Dependable.__get__` returns it to
the body's continuation. -/
theorem undeclared_dependency_access (rec : RecordDef)
    (kwargs : List (String × Val)) (pre post : List PropDef) (P : PropDef)
    (b : Body) (hprops : rec.props = pre ++ P :: post)
    (hbody : P.clean = runBody b) (fst : FieldState)
    (hfield : fieldPhase kwargs rec.fields ⟨[], []⟩ = .ok fst)
    (st : PropState)
    (hpre : propPhase pre ⟨fst.data, fst.errors, [], []⟩ = .ok st)
    (hdeps : (mkView st.data (dependsOnPropnames P.dependsOn)).length =
      (dependsOnPropnames P.dependsOn).length)
    (a : String)
    (hdirty : P.clean (mkView st.data (dependsOnPropnames P.dependsOn)) = .dirty a) :
    recordInit rec kwargs = .fatal "AssertionError" (dirtyMsg P.clsname P.name a) ∧
    (∀ e, recordInit rec kwargs ≠ .vErr e) ∧
    a ∉ dependsOnPropnames P.dependsOn ∧
    (∀ n k, n ∈ dependsOnPropnames P.dependsOn →
      ∃ v, alistGet st.data n = some v ∧
        runBody (.getattr n k) (mkView st.data (dependsOnPropnames P.dependsOn)) =
          runBody (k v) (mkView st.data (dependsOnPropnames P.dependsOn))) := by
  have hstep : propStep st P =
      .error ("AssertionError", dirtyMsg P.clsname P.name a) := by
    simp only [propStep, if_pos hdeps, hdirty]
  have hcore : recordInitCore rec kwargs =
      .error ("AssertionError", dirtyMsg P.clsname P.name a) := by
    simp only [recordInitCore, hfield, hprops,
      propPhase_append_ok pre (P :: post) _ st hpre, propPhase, hstep]
  have hmain : recordInit rec kwargs =
      .fatal "AssertionError" (dirtyMsg P.clsname P.name a) := by
    simp only [recordInit, hcore]
  have hnodup : (dependsOnPropnames P.dependsOn).Nodup := List.nodup_dedup _
  refine ⟨hmain, fun e he => ?_, fun hmem => ?_, fun n k hn => ?_⟩
  · rw [hmain] at he
    cases he
  · have hnone : alistGet (mkView st.data (dependsOnPropnames P.dependsOn)) a =
        Option.none := runBody_dirty b _ a (hbody ▸ hdirty)
    have hsome := mkView_all_isSome st.data (dependsOnPropnames P.dependsOn)
      hdeps a hmem
    rw [mkView_get st.data (dependsOnPropnames P.dependsOn) hnodup a hmem] at hnone
    rw [hnone] at hsome
    cases hsome
  · have hsome := mkView_all_isSome st.data (dependsOnPropnames P.dependsOn)
      hdeps n hn
    obtain ⟨v, hv⟩ := Option.isSome_iff_exists.1 hsome
    refine ⟨v, hv, ?_⟩
    have hview : alistGet (mkView st.data (dependsOnPropnames P.dependsOn)) n =
        some v := by
      rw [mkView_get st.data (dependsOnPropnames P.dependsOn) hnodup n hn]
      exact hv
    simp only [runBody, hview]

/-- Witness for C6 on the `exUndeclared` record (the library's `C3`
test): the property declares only `value`, its body also reads `max`,
and construction fails with the fatal `AssertionError`. -/
theorem undeclared_dependency_access_witness :
    recordInit exUndeclared [("value", .int 1), ("max", .int 3)] =
      .fatal "AssertionError"
        (dirtyMsg "CleanedProperty" "twice_as_value" "max") ∧
    "max" ∉ dependsOnPropnames (DepList.ofList [.fld "value"]) :=
  ⟨((undeclared_dependency_access exUndeclared
      [("value", .int 1), ("max", .int 3)] [] []
      { name := "twice_as_value", dependsOn := DepList.ofList [.fld "value"],
        clean := runBody twiceBody }
      twiceBody rfl rfl
      ⟨[("value", .int 1), ("max", .int 3)], []⟩ rfl
      ⟨[("value", .int 1), ("max", .int 3)], [], [], []⟩ rfl
      rfl "max" rfl).1),
   ((undeclared_dependency_access exUndeclared
      [("value", .int 1), ("max", .int 3)] [] []
      { name := "twice_as_value", dependsOn := DepList.ofList [.fld "value"],
        clean := runBody twiceBody }
      twiceBody rfl rfl
      ⟨[("value", .int 1), ("max", .int 3)], []⟩ rfl
      ⟨[("value", .int 1), ("max", .int 3)], [], [], []⟩ rfl
      rfl "max" rfl).2.2.1)⟩

/-! ### Claim C5: the conversion error boundary -/

/-- A contract-conforming field whose `convert` raises an exception
kind outside the expected tuple. -/
def boomField : FieldDef :=
  { clsName := "BoomField"
    convert := fun _ => .error (.exc "RuntimeError" "boom")
    validate := fun _ => Option.none }

/-- A record over `boomField`. -/
def exBoomRec : RecordDef := { name := "Boom", fields := [("z", boomField)] }

/-- Counterexample to C5 as stated: `NestedField.convert` raises a
`ValidationError` (the nested record's combined error), whose kind is
not among the declared expected exception kinds — yet record
construction catches it and records it as the field's error, returning
a combined `ValidationError` instead of letting the exception propagate
uncaught. -/
theorem conversion_error_boundary_counterexample :
    exInnerNF.convert (.dict []) =
      .error (.validation (VErr.mk [] [("x", requiredError)])) ∧
    exInnerNF.expectedExceptions.contains
      (PyExc.kindName (.validation (VErr.mk [] [("x", requiredError)]))) = false ∧
    recordInit exOuter [("n", .dict [])] =
      .vErr (VErr.mk [] [("n", VErr.mk [] [("x", requiredError)])]) :=
  ⟨rfl, rfl, rfl⟩

/-- C5 (amended).  For every field whose `convert` raises exception
`e` on raw value `v`: if `e`'s kind is among the field's declared
expected kinds, `clean` fails with the Conversion `ValidationError`
carrying the raw value's rendering; if not, `e` propagates out of
`clean` unchanged; at the record level, a propagated
non-`ValidationError` exception aborts construction as the same fatal
exception (uncaught), while a propagated `ValidationError` — as raised
by `NestedField.convert` — is caught by the field loop and recorded
under the field's name. -/
theorem conversion_error_boundary (f : FieldDef) (v : Val) (e : PyExc)
    (hconv : f.convert v = .error e) :
    (f.expectedExceptions.contains e.kindName = true →
      (f.clean (.val v)).result =
        .error (.validation (conversionError f.clsName v))) ∧
    (f.expectedExceptions.contains e.kindName = false →
      (f.clean (.val v)).result = .error e) ∧
    (∀ (rec : RecordDef) (kwargs : List (String × Val))
        (pre post : List (String × FieldDef)) (n : String)
        (st : FieldState) (k m : String),
      e = .exc k m →
      f.expectedExceptions.contains e.kindName = false →
      rec.fields = pre ++ (n, f) :: post →
      rawArg kwargs n = .val v →
      fieldPhase kwargs pre ⟨[], []⟩ = .ok st →
      recordInit rec kwargs = .fatal k m) ∧
    (∀ (kwargs : List (String × Val)) (st : FieldState) (n : String) (eV : VErr),
      e = .validation eV →
      f.expectedExceptions.contains e.kindName = false →
      rawArg kwargs n = .val v →
      fieldStep kwargs st (n, f) = .ok ⟨st.data, alistSet st.errors n eV⟩) := by
  refine ⟨fun h => ?_, fun h => ?_, ?_, ?_⟩
  · have h' : e.kindName ∈ f.expectedExceptions := by simpa using h
    simp [FieldDef.clean, hconv, h']
  · have h' : e.kindName ∉ f.expectedExceptions := by simpa using h
    simp [FieldDef.clean, hconv, h']
  · intro rec kwargs pre post n st k m he hne hfields hraw hpre
    subst he
    have h' : PyExc.kindName (.exc k m) ∉ f.expectedExceptions := by
      simpa using hne
    have hstep : fieldStep kwargs st (n, f) = .error (k, m) := by
      simp [fieldStep, hraw, FieldDef.clean, hconv, h']
    have hcore : recordInitCore rec kwargs = .error (k, m) := by
      simp only [recordInitCore, hfields,
        fieldPhase_append_ok kwargs pre ((n, f) :: post) _ st hpre,
        fieldPhase, hstep]
    simp only [recordInit, hcore]
  · intro kwargs st n eV he hne hraw
    subst he
    have h' : PyExc.kindName (.validation eV) ∉ f.expectedExceptions := by
      simpa using hne
    have hres : (f.clean (.val v)).result = .error (.validation eV) := by
      simp [FieldDef.clean, hconv, h']
    simp only [fieldStep, hraw, hres]

/-- Witness for C5: `int(None)` raises the expected `TypeError`, so an
`IntField` cleans `None` to the Conversion failure; `boomField` raises
`RuntimeError`, which aborts record construction fatally. -/
theorem conversion_error_boundary_witness :
    (intField.clean (.val .null)).result =
      .error (.validation (conversionError "IntField" .null)) ∧
    recordInit exBoomRec [("z", .int 0)] = .fatal "RuntimeError" "boom" :=
  ⟨(conversion_error_boundary intField .null
      (.exc "TypeError" "int argument must not be None") rfl).1 rfl,
   (conversion_error_boundary boomField (.int 0) (.exc "RuntimeError" "boom")
      rfl).2.2.1 exBoomRec [("z", .int 0)] [] [] "z" ⟨[], []⟩
      "RuntimeError" "boom" rfl rfl rfl rfl rfl⟩

/-! ### Claim C9: the `NestedField` round-trip -/

theorem fieldPhase_rerun (kwargs d : List (String × Val))
    (fields : List (String × FieldDef)) :
    ∀ data0 dataF : List (String × Val),
    fieldPhase kwargs fields ⟨data0, []⟩ = .ok ⟨dataF, []⟩ →
    (fields.map Prod.fst).Nodup →
    (∀ n f v, (n, f) ∈ fields → alistGet d n = some v →
      (f.clean (.val v)).result = .ok v) →
    (∀ n f, (n, f) ∈ fields → alistGet d n = alistGet dataF n) →
    fieldPhase d fields ⟨data0, []⟩ = .ok ⟨dataF, []⟩ := by
  induction fields with
  | nil => intro data0 dataF h _ _ _; exact h
  | cons nf rest ih =>
    intro data0 dataF h hnodup hidem hagree
    obtain ⟨n, f⟩ := nf
    simp only [fieldPhase] at h ⊢
    cases hs : fieldStep kwargs ⟨data0, []⟩ (n, f) with
    | error ff => rw [hs] at h; cases h
    | ok st1 =>
      rw [hs] at h
      simp only [fieldStep] at hs
      cases hr : (f.clean (rawArg kwargs n)).result with
      | error e =>
        cases e with
        | validation eV =>
          rw [hr] at hs
          cases hs
          have hne := fieldPhase_errors_mono kwargs rest
            ⟨data0, alistSet [] n eV⟩ ⟨dataF, []⟩ h (alistSet_ne_nil _ _ _)
          exact absurd rfl hne
        | exc k m => rw [hr] at hs; cases hs
      | ok v =>
        rw [hr] at hs
        cases hs
        have hn_rest : ∀ x ∈ rest, x.1 ≠ n := by
          simp only [List.map_cons, List.nodup_cons] at hnodup
          intro x hx heq
          exact hnodup.1 (heq ▸ List.mem_map.2 ⟨x, hx, rfl⟩)
        have hdataF : alistGet dataF n = some v := by
          have hpres := fieldPhase_data_preserve kwargs rest
            ⟨alistSet data0 n v, []⟩ ⟨dataF, []⟩ h n hn_rest
          rw [hpres]
          exact alistGet_set_self _ _ _
        have hdn : alistGet d n = some v := by
          rw [hagree n f (by simp), hdataF]
        have hraw : rawArg d n = .val v := by simp [rawArg, hdn]
        have hstep' : fieldStep d ⟨data0, []⟩ (n, f) =
            .ok ⟨alistSet data0 n v, []⟩ := by
          simp only [fieldStep, hraw, hidem n f v (by simp) hdn]
        rw [hstep']
        refine ih _ _ h ?_ ?_ ?_
        · simp only [List.map_cons, List.nodup_cons] at hnodup
          exact hnodup.2
        · exact fun n' f' v' hm hv => hidem n' f' v' (List.mem_cons_of_mem _ hm) hv
        · exact fun n' f' hm => hagree n' f' (List.mem_cons_of_mem _ hm)

/-- Counterexample to C9 as stated: a contract-conforming field whose
`convert` increments its input is not idempotent on its own output, so
round-tripping the valid instance `{x: 2}` (built from raw `x = 1`)
through a `NestedField` of its own type yields `{x: 3}`, which is not
equal to the original. -/
theorem nested_roundtrip_counterexample :
    recordInit incRec [("x", .int 1)] = .ok (.record "Inc" [("x", .int 2)]) ∧
    incNF.convert (.record "Inc" [("x", .int 2)]) =
      .ok (.record "Inc" [("x", .int 3)]) ∧
    cleanedEq [("x", Val.int 2)] (.record "Inc" [("x", Val.int 3)]) = false :=
  ⟨rfl, rfl, by decide⟩

/-- C9 (amended).  For every valid record instance whose fields clean
their own stored values back to themselves (idempotence — true of the
library's built-in fields but not guaranteed by the `Field` contract),
re-offering the instance (or its stored mapping) through a
`NestedField` of its record type reproduces the instance with literally
the same stored data, hence an equal instance under `Cleaned.__eq__`;
property names must not collide with field names (as the record builder
enforces). -/
theorem nested_roundtrip (rec : RecordDef) (kwargs d : List (String × Val))
    (jl : String → Except PyExc Val) (t : String)
    (hok : recordInit rec kwargs = .ok (.record rec.name d))
    (hnodup : (rec.fields.map Prod.fst).Nodup)
    (hdisj : ∀ nf ∈ rec.fields, ∀ p ∈ rec.props, p.name ≠ nf.1)
    (hidem : ∀ n f v, (n, f) ∈ rec.fields → alistGet d n = some v →
      (f.clean (.val v)).result = .ok v) :
    recordInit rec d = .ok (.record rec.name d) ∧
    (NestedField.make jl rec).convert (.record t d) = .ok (.record rec.name d) ∧
    (NestedField.make jl rec).convert (.dict d) = .ok (.record rec.name d) := by
  have hmain : recordInit rec d = .ok (.record rec.name d) := by
    cases hcore : recordInitCore rec kwargs with
    | error ff =>
      obtain ⟨k, m⟩ := ff
      rw [show recordInit rec kwargs = .fatal k m from by
        simp only [recordInit, hcore]] at hok
      cases hok
    | ok st =>
      have hcond : (st.unnamed.isEmpty && st.errors.isEmpty) = true := by
        by_cases hc : (st.unnamed.isEmpty && st.errors.isEmpty) = true
        · exact hc
        · rw [show recordInit rec kwargs =
              .vErr (combineErrors st.unnamed st.errors) from by
            simp only [recordInit, hcore, Bool.of_not_eq_true hc,
              Bool.false_eq_true, if_false]] at hok
          cases hok
      have hcond' := hcond
      simp only [Bool.and_eq_true] at hcond'
      have herrs : st.errors = [] := List.isEmpty_iff.1 hcond'.2
      have hd : popConstraints rec.props st.data = d := by
        rw [show recordInit rec kwargs =
            .ok (.record rec.name (popConstraints rec.props st.data)) from by
          simp only [recordInit, hcore, hcond, if_true]] at hok
        cases hok
        rfl
      cases hfp : fieldPhase kwargs rec.fields ⟨[], []⟩ with
      | error ff =>
        rw [show recordInitCore rec kwargs = .error ff from by
          simp only [recordInitCore, hfp]] at hcore
        cases hcore
      | ok fst =>
        have hprop : propPhase rec.props ⟨fst.data, fst.errors, [], []⟩ = .ok st := by
          rw [show recordInitCore rec kwargs =
              propPhase rec.props ⟨fst.data, fst.errors, [], []⟩ from by
            simp only [recordInitCore, hfp]] at hcore
          exact hcore
        have hfsterr : fst.errors = [] := by
          by_cases hc : fst.errors = []
          · exact hc
          · exact absurd herrs (propPhase_errors_mono rec.props _ st hprop hc)
        have hagree : ∀ n f, (n, f) ∈ rec.fields →
            alistGet d n = alistGet fst.data n := by
          intro n f hm
          have hprops_ne : ∀ p ∈ rec.props, p.name ≠ n := hdisj (n, f) hm
          rw [← hd, popConstraints_preserve rec.props st.data n hprops_ne,
            propPhase_data_preserve rec.props _ st hprop n hprops_ne]
        have hfp' : fieldPhase kwargs rec.fields ⟨[], []⟩ = .ok ⟨fst.data, []⟩ := by
          rw [hfp]
          cases fst
          simp_all
        have hrerun := fieldPhase_rerun kwargs d rec.fields [] fst.data hfp'
          hnodup hidem hagree
        simp only [recordInit, recordInitCore, hrerun]
        rw [show (⟨fst.data, [], [], []⟩ : PropState) =
            ⟨fst.data, fst.errors, [], []⟩ from by rw [hfsterr]]
        simp only [hprop, hcond, if_true, hd]
  refine ⟨hmain, ?_, ?_⟩ <;>
    simp only [NestedField.make, hmain]

theorem exFieldsAB_idem : ∀ (n : String) (f : FieldDef) (v : Val),
    (n, f) ∈ exFieldsAB.fields →
    alistGet [("a", Val.int 1), ("b", Val.int 2)] n = some v →
    (f.clean (.val v)).result = .ok v := by
  intro n f v hm hv
  simp only [exFieldsAB, List.mem_cons, List.not_mem_nil, or_false] at hm
  rcases hm with hm | hm
  · injection hm with h1 h2
    subst h1
    subst h2
    rw [show alistGet [("a", Val.int 1), ("b", Val.int 2)] "a" =
        some (Val.int 1) from rfl] at hv
    injection hv with h
    subst h
    rfl
  · injection hm with h1 h2
    subst h1
    subst h2
    rw [show alistGet [("a", Val.int 1), ("b", Val.int 2)] "b" =
        some (Val.int 2) from rfl] at hv
    injection hv with h
    subst h
    rfl

/-- Witness for C9 on a valid two-int-field instance: re-offering the
instance or its data through a `NestedField` reproduces it. -/
theorem nested_roundtrip_witness :
    (NestedField.make jsonFail exFieldsAB).convert
        (.record "C" [("a", Val.int 1), ("b", Val.int 2)]) =
      .ok (.record "C" [("a", Val.int 1), ("b", Val.int 2)]) ∧
    (NestedField.make jsonFail exFieldsAB).convert
        (.dict [("a", Val.int 1), ("b", Val.int 2)]) =
      .ok (.record "C" [("a", Val.int 1), ("b", Val.int 2)]) :=
  ⟨(nested_roundtrip exFieldsAB [("a", .int 1), ("b", .int 2)]
      [("a", .int 1), ("b", .int 2)] jsonFail "C" rfl (by decide)
      (by intro nf _ p hp; simp [exFieldsAB] at hp) exFieldsAB_idem).2.1,
   (nested_roundtrip exFieldsAB [("a", .int 1), ("b", .int 2)]
      [("a", .int 1), ("b", .int 2)] jsonFail "C" rfl (by decide)
      (by intro nf _ p hp; simp [exFieldsAB] at hp) exFieldsAB_idem).2.2⟩

end CleanedM
